import Mathlib

/-!
Shallow embedding of the retrieval/diversification core of the Mini-RAG
repository.

Sources modelled:
* the `VectorRetriever` class (embedded after the frontend README):
  `applyMMR`, `reciprocalRankFusion`, `calculateDiversityScore`,
  `calculateAverageSimilarity`, `formatResults`, `retrieveTopKCandidates`,
  `retrieveWithMMR`, `retrieveWithMMRAndRerank`;
* `src/services/rerankingService.js`: `RerankingService.rerankChunks`,
  `callCohereRerank`, `prepareDocuments`, `processRerankResults`,
  `validateInputs`, `calculateRerankingStats`.

Modelling conventions:
* JS numbers are exact rationals (`ℚ`); the claims under study are
  structural/algebraic and do not depend on float rounding.
* JS `null`/`undefined` are `Option.none`; absent string fields are `""`
  (both are falsy in JS, and the code only ever tests them for truthiness).
* Thrown exceptions are `Except String`.
* The external embedding service's `cosineSimilarity` is an injected
  function parameter (`SimFun`), mirroring the `this.embeddingService`
  dependency object; the external Cohere rerank call is an oracle
  `Nat → Except String RerankResponse` giving the outcome of each attempt.
-/

namespace MiniRAG

/-- An embedding vector (JS `number[]`). -/
abbrev Emb := List ℚ

/-- The injected pairwise-similarity primitive
(`this.embeddingService.cosineSimilarity`). -/
abbrev SimFun := Emb → Emb → ℚ

/-- A retrievable chunk/record flowing through the pipeline.  Fields that a
given JS object does not carry are modelled as `none` / `""` / default;
the code only reads them through truthiness checks or after setting them.
The per-chunk display `metadata` sub-object and the `queryEmbedding` field
added by `retrieveTopKCandidates` are not modelled: no code under study
ever reads them back. -/
structure Chunk where
  id : String
  content : String := ""
  text : String := ""
  source : String := ""
  title : String := ""
  sectionName : String := ""
  position : Nat := 0
  similarity : ℚ := 0
  embedding : Option Emb := none
  mmrScore : Option ℚ := none
  rerankScore : Option ℚ := none
  rerankRank : Option Nat := none
  originalRank : Option Nat := none
  rankImprovement : Option Int := none
  rank : Option Nat := none
  deriving DecidableEq

/-! ## MMR selection (`VectorRetriever.applyMMR`) -/

/-- One step of the inner `for (const selectedDoc of selected)` loop of
`applyMMR`: the running maximum is updated only when both the candidate and
the selected document carry an embedding
(`if (candidate.embedding && selectedDoc.embedding)`). -/
def simStep (cos : SimFun) (c : Chunk) (acc : ℚ) (s : Chunk) : ℚ :=
  match c.embedding, s.embedding with
  | some ec, some es => max acc (cos ec es)
  | _, _ => acc

/-- The inner loop of `applyMMR`: `maxSimilarityToSelected` starts at `0`. -/
def maxSimToSelected (cos : SimFun) (c : Chunk) (selected : List Chunk) : ℚ :=
  selected.foldl (simStep cos c) 0

/-- The MMR objective computed in the loop body:
`lambda * relevanceScore - (1 - lambda) * maxSimilarityToSelected`. -/
def mmrObjective (cos : SimFun) (lam : ℚ) (selected : List Chunk) (c : Chunk) : ℚ :=
  lam * c.similarity - (1 - lam) * maxSimToSelected cos c selected

/-- JS `array.reduce((best, cur) => key cur > key best ? cur : best)`:
first-occurring maximum of `key`.  The `bestScore = -Infinity` /
`bestCandidate = null` loop of `applyMMR` is the same fold: the first
candidate always beats `-Infinity`, so the fold effectively starts from
the first element. -/
def jsReduceMaxBy (key : Chunk → ℚ) : List Chunk → Option Chunk
  | [] => none
  | c :: rest => some (rest.foldl (fun best cur => if key cur > key best then cur else best) c)

/-- The accumulator of `jsReduceMaxBy` is the initial element or a list element. -/
theorem foldlMaxBy_mem (key : Chunk → ℚ) (l : List Chunk) (b : Chunk) :
    l.foldl (fun best cur => if key cur > key best then cur else best) b = b ∨
      l.foldl (fun best cur => if key cur > key best then cur else best) b ∈ l := by
  induction l generalizing b with
  | nil => exact Or.inl rfl
  | cons x xs ih =>
    simp only [List.foldl_cons]
    rcases ih (if key x > key b then x else b) with h | h
    · rw [h]
      by_cases hx : key x > key b
      · simp [hx]
      · simp [hx]
    · exact Or.inr (List.mem_cons_of_mem x h)

theorem jsReduceMaxBy_mem {key : Chunk → ℚ} {l : List Chunk} {b : Chunk}
    (h : jsReduceMaxBy key l = some b) : b ∈ l := by
  cases l with
  | nil => simp [jsReduceMaxBy] at h
  | cons c rest =>
    simp only [jsReduceMaxBy, Option.some.injEq] at h
    subst h
    rcases foldlMaxBy_mem key rest c with h' | h'
    · rw [h']
      exact List.mem_cons_self c rest
    · exact List.mem_cons_of_mem c h'

/-- The `while (selected.length < finalK && remaining.length > 0)` loop of
`applyMMR`.  `bestCandidate` is the first-occurring maximiser of the MMR
objective; it is pushed with `mmrScore` set to its objective value and
removed from `remaining` (`splice(indexOf(bestCandidate), 1)`, which
removes the first value-equal occurrence — for the first-occurring
maximiser this is the element itself). -/
def mmrLoop (cos : SimFun) (lam : ℚ) (finalK : Nat)
    (selected remaining : List Chunk) : List Chunk :=
  if h : selected.length < finalK ∧ remaining ≠ [] then
    match hb : jsReduceMaxBy (mmrObjective cos lam selected) remaining with
    | some b =>
        mmrLoop cos lam finalK
          (selected ++ [{ b with mmrScore := some (mmrObjective cos lam selected b) }])
          (remaining.erase b)
    | none => selected
  else selected
termination_by remaining.length
decreasing_by
  have hmem : b ∈ remaining := jsReduceMaxBy_mem hb
  have := List.length_erase_of_mem hmem
  have hpos : 0 < remaining.length := List.length_pos.mpr h.2
  omega

/-- `VectorRetriever.applyMMR(queryEmbedding, candidates, finalK, lambda)`.
The `queryEmbedding` parameter is kept for signature fidelity; the JS body
never reads it (relevance is the precomputed `similarity`). -/
def applyMMR (cos : SimFun) (queryEmbedding : Emb) (candidates : List Chunk)
    (finalK : Nat) (lam : ℚ) : List Chunk :=
  if candidates.length ≤ finalK then candidates
  else
    match jsReduceMaxBy (fun c => c.similarity) candidates with
    | some m => mmrLoop cos lam finalK [m] (candidates.erase m)
    | none => []

theorem jsReduceMaxBy_some (key : Chunk → ℚ) {l : List Chunk} (h : l ≠ []) :
    ∃ b, jsReduceMaxBy key l = some b := by
  cases l with
  | nil => exact absurd rfl h
  | cons c rest => exact ⟨_, rfl⟩

theorem mmrLoop_eq_stop {cos : SimFun} {lam : ℚ} {finalK : Nat}
    {selected remaining : List Chunk}
    (h : ¬(selected.length < finalK ∧ remaining ≠ [])) :
    mmrLoop cos lam finalK selected remaining = selected := by
  rw [mmrLoop, dif_neg h]

theorem mmrLoop_eq_pick {cos : SimFun} {lam : ℚ} {finalK : Nat}
    {selected remaining : List Chunk} {b : Chunk}
    (h1 : selected.length < finalK)
    (h2 : jsReduceMaxBy (mmrObjective cos lam selected) remaining = some b) :
    mmrLoop cos lam finalK selected remaining =
      mmrLoop cos lam finalK
        (selected ++ [{ b with mmrScore := some (mmrObjective cos lam selected b) }])
        (remaining.erase b) := by
  have hne : remaining ≠ [] := by
    rintro rfl
    simp [jsReduceMaxBy] at h2
  rw [mmrLoop, dif_pos ⟨h1, hne⟩]
  split
  · next b' hb =>
      rw [h2] at hb
      cases hb
      rfl
  · next hb =>
      rw [h2] at hb
      cases hb

/-- Structure of the MMR loop: it only appends to `selected`, and every
appended element is an element of `remaining` with (at most) its
`mmrScore` overwritten. -/
theorem mmrLoop_append (cos : SimFun) (lam : ℚ) (finalK : Nat) :
    ∀ n (selected remaining : List Chunk), remaining.length = n →
      ∃ tail, mmrLoop cos lam finalK selected remaining = selected ++ tail ∧
        ∀ c' ∈ tail, ∃ c ∈ remaining, c' = { c with mmrScore := c'.mmrScore } := by
  intro n
  induction n using Nat.strong_induction_on with
  | _ n ih =>
    intro selected remaining hlen
    by_cases hcond : selected.length < finalK ∧ remaining ≠ []
    · obtain ⟨b, hb⟩ := jsReduceMaxBy_some (mmrObjective cos lam selected) hcond.2
      have hbmem : b ∈ remaining := jsReduceMaxBy_mem hb
      have herase : (remaining.erase b).length = remaining.length - 1 :=
        List.length_erase_of_mem hbmem
      have hpos : 0 < remaining.length := List.length_pos.mpr hcond.2
      obtain ⟨tail, htail, hmem⟩ :=
        ih (remaining.erase b).length (by omega)
          (selected ++ [{ b with mmrScore := some (mmrObjective cos lam selected b) }])
          (remaining.erase b) rfl
      refine ⟨{ b with mmrScore := some (mmrObjective cos lam selected b) } :: tail, ?_, ?_⟩
      · rw [mmrLoop_eq_pick hcond.1 hb, htail]
        simp
      · intro c' hc'
        rcases List.mem_cons.mp hc' with hc' | hc'
        · exact ⟨b, hbmem, by rw [hc']⟩
        · obtain ⟨c, hcmem, hceq⟩ := hmem c' hc'
          exact ⟨c, List.mem_of_mem_erase hcmem, hceq⟩
    · exact ⟨[], by rw [mmrLoop_eq_stop hcond]; simp, by simp⟩

/-- Size of the MMR loop output: as long as `selected` has not yet reached
`finalK`, each iteration moves exactly one chunk, so the final size is
`min finalK (|selected| + |remaining|)`. -/
theorem mmrLoop_length (cos : SimFun) (lam : ℚ) (finalK : Nat) :
    ∀ n (selected remaining : List Chunk), remaining.length = n →
      selected.length ≤ finalK →
      (mmrLoop cos lam finalK selected remaining).length =
        min finalK (selected.length + remaining.length) := by
  intro n
  induction n using Nat.strong_induction_on with
  | _ n ih =>
    intro selected remaining hlen hsel
    by_cases hcond : selected.length < finalK ∧ remaining ≠ []
    · obtain ⟨b, hb⟩ := jsReduceMaxBy_some (mmrObjective cos lam selected) hcond.2
      have hbmem : b ∈ remaining := jsReduceMaxBy_mem hb
      have herase : (remaining.erase b).length = remaining.length - 1 :=
        List.length_erase_of_mem hbmem
      have hpos : 0 < remaining.length := List.length_pos.mpr hcond.2
      rw [mmrLoop_eq_pick hcond.1 hb]
      rw [ih (remaining.erase b).length (by omega) _ _ rfl (by simp; omega)]
      simp [herase]
      omega
    · rw [mmrLoop_eq_stop hcond]
      rcases not_and_or.mp hcond with h | h
      · omega
      · have : remaining = [] := not_ne_iff.mp h
        subst this
        simp
        omega

/-- Characterisation of the keep-first-strict-max fold: either nothing beat
the initial accumulator, or the result is the element of the list that
strictly beats everything before it and is not beaten by anything after. -/
theorem foldlMaxBy_spec (key : Chunk → ℚ) :
    ∀ (xs : List Chunk) (b r : Chunk),
      xs.foldl (fun best cur => if key cur > key best then cur else best) b = r →
      (r = b ∧ ∀ c ∈ xs, key c ≤ key b) ∨
      (∃ pre post, xs = pre ++ r :: post ∧ key b < key r ∧
        (∀ c ∈ pre, key c < key r) ∧ (∀ c ∈ post, key c ≤ key r)) := by
  intro xs
  induction xs with
  | nil =>
    intro b r h
    simp only [List.foldl_nil] at h
    exact Or.inl ⟨h.symm, by simp⟩
  | cons x xs ih =>
    intro b r h
    simp only [List.foldl_cons] at h
    by_cases hx : key x > key b
    · rw [if_pos hx] at h
      rcases ih x r h with ⟨hr, hall⟩ | ⟨pre, post, hxs, hlt, hpre, hpost⟩
      · subst hr
        exact Or.inr ⟨[], xs, by simp, hx, by simp, hall⟩
      · refine Or.inr ⟨x :: pre, post, by rw [hxs]; rfl, lt_trans hx hlt, ?_, hpost⟩
        intro c hc
        rcases List.mem_cons.mp hc with hc | hc
        · exact hc ▸ hlt
        · exact hpre c hc
    · rw [if_neg hx] at h
      push_neg at hx
      rcases ih b r h with ⟨hr, hall⟩ | ⟨pre, post, hxs, hlt, hpre, hpost⟩
      · refine Or.inl ⟨hr, ?_⟩
        intro c hc
        rcases List.mem_cons.mp hc with hc | hc
        · exact hc ▸ hx
        · exact hall c hc
      · refine Or.inr ⟨x :: pre, post, by rw [hxs]; rfl, hlt, ?_, hpost⟩
        intro c hc
        rcases List.mem_cons.mp hc with hc | hc
        · exact hc ▸ lt_of_le_of_lt hx hlt
        · exact hpre c hc

/-- `jsReduceMaxBy` returns the first-occurring maximiser of `key`. -/
theorem jsReduceMaxBy_spec {key : Chunk → ℚ} {l : List Chunk} {m : Chunk}
    (h : jsReduceMaxBy key l = some m) :
    (∀ c ∈ l, key c ≤ key m) ∧
      ∃ pre post, l = pre ++ m :: post ∧ ∀ c ∈ pre, key c < key m := by
  cases l with
  | nil => simp [jsReduceMaxBy] at h
  | cons c rest =>
    simp only [jsReduceMaxBy, Option.some.injEq] at h
    rcases foldlMaxBy_spec key rest c m h with ⟨hr, hall⟩ | ⟨pre, post, hxs, hlt, hpre, hpost⟩
    · subst hr
      refine ⟨?_, [], rest, rfl, by simp⟩
      intro d hd
      rcases List.mem_cons.mp hd with hd | hd
      · exact hd ▸ le_refl _
      · exact hall d hd
    · refine ⟨?_, c :: pre, post, by rw [hxs]; rfl, ?_⟩
      · intro d hd
        rcases List.mem_cons.mp hd with hd | hd
        · exact hd ▸ le_of_lt hlt
        · rw [hxs] at hd
          rcases List.mem_append.mp hd with hd | hd
          · exact le_of_lt (hpre d hd)
          · rcases List.mem_cons.mp hd with hd | hd
            · exact hd ▸ le_refl _
            · exact hpost d hd
      · intro d hd
        rcases List.mem_cons.mp hd with hd | hd
        · exact hd ▸ hlt
        · exact hpre d hd

/-! ## Concrete chunks used by witnesses and counterexamples -/

/-- A trivial injected similarity function (any `SimFun` works for claims
that do not inspect similarity values). -/
def zeroSim : SimFun := fun _ _ => 0

/-- Rational dot product.  For unit vectors (all test vectors below are
`[±1, 0]`-style) it coincides exactly with the source's
`cosineSimilarity = dot / (‖a‖·‖b‖)`, since both norms are `1`. -/
def dotSim : SimFun := fun a b => (a.zip b).foldl (fun acc p => acc + p.1 * p.2) 0

def chA : Chunk := { id := "a", content := "alpha", similarity := 9/10 }

def chB : Chunk := { id := "b", content := "beta", similarity := 4/5 }

/-! ## Claim theorems about `applyMMR` sizes and the first pick -/

/-- C5: for every candidate list with `|candidates| <= finalK`, `applyMMR`
returns exactly the input candidates, unchanged and in the original input
order (the explicit short-circuit at the top of the function). -/
theorem claim_C5_mmr_short_circuit (cos : SimFun) (qe : Emb) (candidates : List Chunk)
    (finalK : Nat) (lam : ℚ) (h : candidates.length ≤ finalK) :
    applyMMR cos qe candidates finalK lam = candidates := by
  unfold applyMMR
  rw [if_pos h]

/-- Witness for C5 at a concrete input. -/
theorem claim_C5_mmr_short_circuit_witness :
    ([chA, chB] : List Chunk).length ≤ 5 ∧
      applyMMR zeroSim [] [chA, chB] 5 (7/10) = [chA, chB] :=
  ⟨by decide, claim_C5_mmr_short_circuit zeroSim [] [chA, chB] 5 (7/10) (by decide)⟩

/-- With `finalK = 0` and a single candidate, `applyMMR` still returns that
candidate: the short-circuit test `candidates.length <= finalK` fails
(`1 <= 0`), the most-relevant pick happens unconditionally, and the while
loop exits with one element already selected. -/
theorem applyMMR_finalK_zero_singleton :
    applyMMR zeroSim [] [chA] 0 (7/10) = [chA] := by
  unfold applyMMR
  rw [if_neg (by simp)]
  show mmrLoop zeroSim (7/10) 0 [chA] (([chA] : List Chunk).erase chA) = [chA]
  rw [mmrLoop_eq_stop (by simp)]

/-- C3 counterexample: the claim says `|applyMMR(qe, candidates, finalK,
lambda)| = min(finalK, |candidates|)` for every non-negative `finalK`, and
in particular that `finalK = 0` yields an empty selection.  On the code,
`finalK = 0` with one candidate returns that candidate (length `1`, not
`min 0 1 = 0`): the unconditional top-relevance pick precedes the loop
bound check. -/
theorem claim_C3_counterexample :
    (applyMMR zeroSim [] [chA] 0 (7/10)).length = 1 ∧
      min 0 ([chA] : List Chunk).length = 0 := by
  rw [applyMMR_finalK_zero_singleton]
  exact ⟨rfl, rfl⟩

/-- C3 (amended): for every `finalK >= 1`, the list returned by `applyMMR`
has length exactly `min(finalK, |candidates|)`.  (For `finalK = 0` the code
returns one element whenever the candidate list is non-empty, see the
counterexample.) -/
theorem claim_C3_mmr_bound (cos : SimFun) (qe : Emb) (candidates : List Chunk)
    (finalK : Nat) (lam : ℚ) (hk : 1 ≤ finalK) :
    (applyMMR cos qe candidates finalK lam).length = min finalK candidates.length := by
  unfold applyMMR
  by_cases hle : candidates.length ≤ finalK
  · rw [if_pos hle]
    omega
  · rw [if_neg hle]
    have hne : candidates ≠ [] := by
      intro h
      rw [h] at hle
      exact hle (by simp)
    obtain ⟨m, hm⟩ := jsReduceMaxBy_some (fun c => c.similarity) hne
    rw [hm]
    have hmem := jsReduceMaxBy_mem hm
    have h1 := mmrLoop_length cos lam finalK (candidates.erase m).length [m]
      (candidates.erase m) rfl (by simpa using hk)
    show (mmrLoop cos lam finalK [m] (candidates.erase m)).length =
      min finalK candidates.length
    rw [h1, List.length_erase_of_mem hmem]
    have hpos : 0 < candidates.length := List.length_pos.mpr hne
    simp
    omega

/-- Witness for the amended C3 at a concrete input exercising the loop
branch (`finalK = 1 < 2` candidates). -/
theorem claim_C3_mmr_bound_witness :
    1 ≤ 1 ∧ (applyMMR zeroSim [] [chA, chB] 1 (7/10)).length =
      min 1 ([chA, chB] : List Chunk).length :=
  ⟨le_refl 1, claim_C3_mmr_bound zeroSim [] [chA, chB] 1 (7/10) (le_refl 1)⟩

/-- C6: for `1 <= finalK < |candidates|`, the first element of the
`applyMMR` output is a candidate of maximal `similarity`, with ties broken
by first occurrence in input order (everything strictly before it in the
input has strictly smaller similarity). -/
theorem claim_C6_mmr_top_pick (cos : SimFun) (qe : Emb) (candidates : List Chunk)
    (finalK : Nat) (lam : ℚ) (hk : 1 ≤ finalK) (hlt : finalK < candidates.length) :
    ∃ m, (applyMMR cos qe candidates finalK lam).head? = some m ∧
      m ∈ candidates ∧ (∀ c ∈ candidates, c.similarity ≤ m.similarity) ∧
      ∃ pre post, candidates = pre ++ m :: post ∧
        ∀ c ∈ pre, c.similarity < m.similarity := by
  have hne : candidates ≠ [] := by
    intro h
    rw [h] at hlt
    simp at hlt
  obtain ⟨m, hm⟩ := jsReduceMaxBy_some (fun c => c.similarity) hne
  obtain ⟨hall, pre, post, hdec, hpre⟩ := jsReduceMaxBy_spec hm
  obtain ⟨tail, htail, -⟩ :=
    mmrLoop_append cos lam finalK (candidates.erase m).length [m] (candidates.erase m) rfl
  refine ⟨m, ?_, jsReduceMaxBy_mem hm, hall, pre, post, hdec, hpre⟩
  unfold applyMMR
  rw [if_neg (by omega), hm]
  show (mmrLoop cos lam finalK [m] (candidates.erase m)).head? = some m
  rw [htail]
  rfl

/-- Witness for C6 at a concrete input. -/
theorem claim_C6_mmr_top_pick_witness :
    ∃ m, (applyMMR zeroSim [] [chA, chB] 1 (7/10)).head? = some m ∧
      m ∈ ([chA, chB] : List Chunk) ∧
      (∀ c ∈ ([chA, chB] : List Chunk), c.similarity ≤ m.similarity) ∧
      ∃ pre post, ([chA, chB] : List Chunk) = pre ++ m :: post ∧
        ∀ c ∈ pre, c.similarity < m.similarity :=
  claim_C6_mmr_top_pick zeroSim [] [chA, chB] 1 (7/10) (le_refl 1) (by decide)

/-! ## The MMR iteration objective (claim C4) -/

/-- Pairwise-similarity contribution of an already-selected chunk `s`
against candidate `c`: the injected cosine when both carry embeddings,
`0` otherwise (the loop in `applyMMR` simply skips such pairs). -/
def pairContrib (cos : SimFun) (c s : Chunk) : ℚ :=
  match c.embedding, s.embedding with
  | some ec, some es => cos ec es
  | _, _ => 0

theorem simStep_eq (cos : SimFun) (c : Chunk) {acc : ℚ} (hacc : 0 ≤ acc) (s : Chunk) :
    simStep cos c acc s = max acc (pairContrib cos c s) := by
  unfold simStep pairContrib
  cases c.embedding <;> cases s.embedding <;> simp [max_eq_left hacc]

theorem maxSimToSelected_foldl_contrib (cos : SimFun) (c : Chunk) :
    ∀ (selected : List Chunk) (acc : ℚ), 0 ≤ acc →
      selected.foldl (simStep cos c) acc
        = selected.foldl (fun a s => max a (pairContrib cos c s)) acc := by
  intro selected
  induction selected with
  | nil => intro acc _; rfl
  | cons s rest ih =>
    intro acc hacc
    rw [List.foldl_cons, List.foldl_cons, simStep_eq cos c hacc]
    exact ih (max acc (pairContrib cos c s)) (le_trans hacc (le_max_left _ _))

/-- The MMR score written the way the (amended) claim states it: the
diversity penalty is the maximum of the pairwise contributions *floored at
zero* (the code's running maximum starts at `0`). -/
def claimScore (cos : SimFun) (lam : ℚ) (selected : List Chunk) (c : Chunk) : ℚ :=
  lam * c.similarity - (1 - lam) * ((selected.map (pairContrib cos c)).foldl max 0)

/-- The running maximum in `applyMMR` starts at `0`, so it equals the fold
of `max` over the pair contributions with a `0` floor. -/
theorem maxSimToSelected_eq (cos : SimFun) (c : Chunk) (selected : List Chunk) :
    maxSimToSelected cos c selected = (selected.map (pairContrib cos c)).foldl max 0 := by
  unfold maxSimToSelected
  rw [List.foldl_map]
  exact maxSimToSelected_foldl_contrib cos c selected 0 (le_refl 0)

theorem mmrObjective_eq (cos : SimFun) (lam : ℚ) (selected : List Chunk) (c : Chunk) :
    mmrObjective cos lam selected c = claimScore cos lam selected c := by
  unfold mmrObjective claimScore
  rw [maxSimToSelected_eq]

/-- C4 (amended): in each MMR iteration after the first pick, the selected
candidate is the first-occurring maximiser over the remaining candidates of
`lambda * similarity(d) - (1 - lambda) * M(d)`, where `M(d)` is the
maximum of the pairwise similarity contributions to the already-selected
chunks *floored at `0`* (the running maximum starts at `0`); pairs with a
missing embedding contribute `0`.  (The unfloored maximum of the claim's
wording differs when all pairwise similarities are negative — see the
counterexample.) -/
theorem claim_C4_mmr_iteration (cos : SimFun) (lam : ℚ) (finalK : Nat)
    (selected remaining : List Chunk)
    (h1 : selected.length < finalK) (h2 : remaining ≠ []) :
    ∃ b, b ∈ remaining ∧
      mmrLoop cos lam finalK selected remaining =
        mmrLoop cos lam finalK
          (selected ++ [{ b with mmrScore := some (claimScore cos lam selected b) }])
          (remaining.erase b) ∧
      (∀ c ∈ remaining, claimScore cos lam selected c ≤ claimScore cos lam selected b) ∧
      ∃ pre post, remaining = pre ++ b :: post ∧
        ∀ c ∈ pre, claimScore cos lam selected c < claimScore cos lam selected b := by
  obtain ⟨b, hb⟩ := jsReduceMaxBy_some (mmrObjective cos lam selected) h2
  obtain ⟨hall, pre, post, hdec, hpre⟩ := jsReduceMaxBy_spec hb
  refine ⟨b, jsReduceMaxBy_mem hb, ?_, ?_, pre, post, hdec, ?_⟩
  · rw [← mmrObjective_eq]
    exact mmrLoop_eq_pick h1 hb
  · intro c hc
    rw [← mmrObjective_eq, ← mmrObjective_eq]
    exact hall c hc
  · intro c hc
    rw [← mmrObjective_eq, ← mmrObjective_eq]
    exact hpre c hc

/-- Witness for the amended C4 at a concrete input. -/
theorem claim_C4_mmr_iteration_witness :
    ∃ b, b ∈ ([chB] : List Chunk) ∧
      mmrLoop zeroSim (7/10) 2 [chA] [chB] =
        mmrLoop zeroSim (7/10) 2
          ([chA] ++ [{ b with mmrScore := some (claimScore zeroSim (7/10) [chA] b) }])
          (([chB] : List Chunk).erase b) ∧
      (∀ c ∈ ([chB] : List Chunk),
        claimScore zeroSim (7/10) [chA] c ≤ claimScore zeroSim (7/10) [chA] b) ∧
      ∃ pre post, ([chB] : List Chunk) = pre ++ b :: post ∧
        ∀ c ∈ pre, claimScore zeroSim (7/10) [chA] c < claimScore zeroSim (7/10) [chA] b :=
  claim_C4_mmr_iteration zeroSim (7/10) 2 [chA] [chB] (by decide) (by decide)

/-- Modelled from the claim's wording: the MMR score with the *unclamped*
maximum `max_{s in selected} pairContrib(d, s)` (missing-embedding pairs
contribute `0` to the choices, but there is no implicit `0` floor when
every contribution is negative). -/
def specMMRScoreUnclamped (cos : SimFun) (lam : ℚ) (selected : List Chunk) (c : Chunk) : ℚ :=
  match selected.map (pairContrib cos c) with
  | [] => lam * c.similarity
  | x :: xs => lam * c.similarity - (1 - lam) * (xs.foldl max x)

def chS : Chunk := { id := "s", content := "anchor", similarity := 9/10, embedding := some [1, 0] }

def chD1 : Chunk := { id := "d1", content := "opposite", similarity := 1/2, embedding := some [-1, 0] }

def chD2 : Chunk := { id := "d2", content := "bare", similarity := 3/5 }

/-- C4 counterexample: with `selected = [chS]` (embedding `[1,0]`),
candidate `chD1` has pairwise cosine `-1` to `chS` and `chD2` has no
embedding.  Under the claim's formula `chD1` scores `3/4` and `chD2`
scores `3/10`, so the claim predicts `chD1` is selected; the code clamps
the running maximum at `0` and selects `chD2`. -/
theorem claim_C4_counterexample :
    applyMMR dotSim [] [chS, chD1, chD2] 2 (1/2) =
      [chS, { chD2 with mmrScore := some (3/10) }] ∧
    specMMRScoreUnclamped dotSim (1/2) [chS] chD2 <
      specMMRScoreUnclamped dotSim (1/2) [chS] chD1 := by
  have hobj1 : mmrObjective dotSim (1/2) [chS] chD1 = 1/4 := by
    norm_num [mmrObjective, maxSimToSelected, simStep, dotSim, chS, chD1]
  have hobj2 : mmrObjective dotSim (1/2) [chS] chD2 = 3/10 := by
    norm_num [mmrObjective, maxSimToSelected, simStep, chS, chD2]
  constructor
  · have e1 : jsReduceMaxBy (fun c => c.similarity) [chS, chD1, chD2] = some chS := by
      norm_num [jsReduceMaxBy, chS, chD1, chD2]
    have e2 : ([chS, chD1, chD2] : List Chunk).erase chS = [chD1, chD2] :=
      List.erase_cons_head chS [chD1, chD2]
    have e3 : jsReduceMaxBy (mmrObjective dotSim (1/2) [chS]) [chD1, chD2] = some chD2 := by
      simp only [jsReduceMaxBy, List.foldl_cons, List.foldl_nil, hobj1, hobj2]
      norm_num
    unfold applyMMR
    rw [if_neg (by simp), e1]
    show mmrLoop dotSim (1/2) 2 [chS] (([chS, chD1, chD2] : List Chunk).erase chS) =
      [chS, { chD2 with mmrScore := some (3/10) }]
    rw [e2, mmrLoop_eq_pick (by simp) e3, hobj2]
    rw [mmrLoop_eq_stop (by rintro ⟨h, -⟩; simp at h)]
    rfl
  · rw [show specMMRScoreUnclamped dotSim (1/2) [chS] chD2 = 3/10 by
        norm_num [specMMRScoreUnclamped, pairContrib, chS, chD2],
      show specMMRScoreUnclamped dotSim (1/2) [chS] chD1 = 3/4 by
        norm_num [specMMRScoreUnclamped, pairContrib, dotSim, chS, chD1]]
    norm_num

/-! ## MMR with no embeddings degenerates to top-K by similarity (claim C10) -/

theorem foldlMaxBy_congr (key1 key2 : Chunk → ℚ) :
    ∀ (l : List Chunk) (b : Chunk), (∀ c ∈ l, key1 c = key2 c) → key1 b = key2 b →
      l.foldl (fun best cur => if key1 cur > key1 best then cur else best) b =
      l.foldl (fun best cur => if key2 cur > key2 best then cur else best) b := by
  intro l
  induction l with
  | nil => intro b _ _; rfl
  | cons x xs ih =>
    intro b hl hb
    simp only [List.foldl_cons]
    have hx : key1 x = key2 x := hl x (List.mem_cons_self x xs)
    have hinit : (if key1 x > key1 b then x else b) = (if key2 x > key2 b then x else b) := by
      rw [hx, hb]
    rw [hinit]
    refine ih _ (fun c hc => hl c (List.mem_cons_of_mem x hc)) ?_
    by_cases h : key2 x > key2 b
    · rw [if_pos h]
      exact hx
    · rw [if_neg h]
      exact hb

theorem jsReduceMaxBy_congr {key1 key2 : Chunk → ℚ} {l : List Chunk}
    (h : ∀ c ∈ l, key1 c = key2 c) : jsReduceMaxBy key1 l = jsReduceMaxBy key2 l := by
  cases l with
  | nil => rfl
  | cons c rest =>
    simp only [jsReduceMaxBy, Option.some.injEq]
    exact foldlMaxBy_congr key1 key2 rest c
      (fun d hd => h d (List.mem_cons_of_mem c hd)) (h c (List.mem_cons_self c rest))

theorem foldlMaxBy_scale {lam : ℚ} (hlam : 0 < lam) (key : Chunk → ℚ) :
    ∀ (l : List Chunk) (b : Chunk),
      l.foldl (fun best cur => if lam * key cur > lam * key best then cur else best) b =
      l.foldl (fun best cur => if key cur > key best then cur else best) b := by
  intro l
  induction l with
  | nil => intro b; rfl
  | cons x xs ih =>
    intro b
    simp only [List.foldl_cons]
    rw [if_congr (mul_lt_mul_left hlam) rfl rfl]
    exact ih _

theorem jsReduceMaxBy_scale {lam : ℚ} (hlam : 0 < lam) (key : Chunk → ℚ) (l : List Chunk) :
    jsReduceMaxBy (fun c => lam * key c) l = jsReduceMaxBy key l := by
  cases l with
  | nil => rfl
  | cons c rest =>
    simp only [jsReduceMaxBy, Option.some.injEq]
    exact foldlMaxBy_scale hlam key rest c

theorem simStep_no_emb (cos : SimFun) {c : Chunk} (h : c.embedding = none)
    (acc : ℚ) (s : Chunk) : simStep cos c acc s = acc := by
  unfold simStep
  rw [h]

theorem maxSimToSelected_no_emb (cos : SimFun) {c : Chunk} (h : c.embedding = none)
    (selected : List Chunk) : maxSimToSelected cos c selected = 0 := by
  unfold maxSimToSelected
  have : ∀ (l : List Chunk) (acc : ℚ), l.foldl (simStep cos c) acc = acc := by
    intro l
    induction l with
    | nil => intro acc; rfl
    | cons s rest ih =>
      intro acc
      rw [List.foldl_cons, simStep_no_emb cos h]
      exact ih acc
  exact this selected 0

theorem mmrObjective_no_emb (cos : SimFun) (lam : ℚ) (selected : List Chunk)
    {c : Chunk} (h : c.embedding = none) :
    mmrObjective cos lam selected c = lam * c.similarity := by
  unfold mmrObjective
  rw [maxSimToSelected_no_emb cos h]
  ring

/-- Uniqueness of the first-occurring maximum: if `x` and `y` both attain
the maximum of `key` over `l` and each is preceded only by strictly
smaller keys, they are the same element. -/
theorem firstMax_unique (key : Chunk → ℚ) {l : List Chunk} {x y : Chunk}
    {px sx py sy : List Chunk}
    (hx : l = px ++ x :: sx) (hxpre : ∀ c ∈ px, key c < key x)
    (hxall : ∀ c ∈ l, key c ≤ key x)
    (hy : l = py ++ y :: sy) (hypre : ∀ c ∈ py, key c < key y)
    (hyall : ∀ c ∈ l, key c ≤ key y) : x = y := by
  rcases lt_trichotomy px.length py.length with h | h | h
  · exfalso
    have hgx : l[px.length]? = some x := by
      rw [hx, List.getElem?_append_right (le_refl px.length)]
      simp
    have hgy : l[px.length]? = py[px.length]? := by
      rw [hy, List.getElem?_append, if_pos h]
    have hxpy : x ∈ py := by
      have : py[px.length]? = some x := by rw [← hgy, hgx]
      exact List.getElem?_mem this
    have h1 : key x < key y := hypre x hxpy
    have h2 : key y ≤ key x := hxall y (by rw [hy]; exact List.mem_append_right py (List.mem_cons_self y sy))
    exact absurd h1 (not_lt.mpr h2)
  · rw [hx] at hy
    obtain ⟨-, h2⟩ := List.append_inj hy h
    exact (List.cons.injEq x sx y sy ▸ h2).1
  · exfalso
    have hgy : l[py.length]? = some y := by
      rw [hy, List.getElem?_append_right (le_refl py.length)]
      simp
    have hgx : l[py.length]? = px[py.length]? := by
      rw [hx, List.getElem?_append, if_pos h]
    have hypx : y ∈ px := by
      have : px[py.length]? = some y := by rw [← hgx, hgy]
      exact List.getElem?_mem this
    have h1 : key y < key x := hxpre y hypx
    have h2 : key x ≤ key y := hyall x (by rw [hx]; exact List.mem_append_right px (List.mem_cons_self x sx))
    exact absurd h1 (not_lt.mpr h2)

theorem jsReduceMaxBy_cons_of_ge {key : Chunk → ℚ} {c : Chunk} {cs : List Chunk} {m : Chunk}
    (hm : jsReduceMaxBy key cs = some m) (hge : key m ≤ key c) :
    jsReduceMaxBy key (c :: cs) = some c := by
  have hall := (jsReduceMaxBy_spec hm).1
  show some (cs.foldl (fun best cur => if key cur > key best then cur else best) c) = some c
  congr 1
  rcases foldlMaxBy_spec key cs c _ rfl with ⟨hr, -⟩ | ⟨pre, post, hdec, hlt, -, -⟩
  · exact hr
  · exfalso
    have hrmem : ∀ r, cs = pre ++ r :: post → r ∈ cs := by
      intro r hr
      rw [hr]
      exact List.mem_append_right pre (List.mem_cons_self r post)
    exact absurd hlt (not_lt.mpr (le_trans (hall _ (hrmem _ hdec)) hge))

theorem jsReduceMaxBy_cons_of_lt {key : Chunk → ℚ} {c : Chunk} {cs : List Chunk} {m : Chunk}
    (hm : jsReduceMaxBy key cs = some m) (hlt : key c < key m) :
    jsReduceMaxBy key (c :: cs) = some m := by
  obtain ⟨hall, pre, post, hdec, hpre⟩ := jsReduceMaxBy_spec hm
  have hmmem := jsReduceMaxBy_mem hm
  show some (cs.foldl (fun best cur => if key cur > key best then cur else best) c) = some m
  congr 1
  rcases foldlMaxBy_spec key cs c _ rfl with ⟨-, hallc⟩ | ⟨pre2, post2, hdec2, -, hpre2, hpost2⟩
  · exact absurd (hallc m hmmem) (not_le.mpr hlt)
  · refine firstMax_unique key hdec2 hpre2 ?_ hdec hpre hall
    intro d hd
    rw [hdec2] at hd
    rcases List.mem_append.mp hd with hd | hd
    · exact le_of_lt (hpre2 d hd)
    · rcases List.mem_cons.mp hd with hd | hd
      · exact hd ▸ le_refl _
      · exact hpost2 d hd

/-- Descending-similarity relation: `simDescRel a b` holds when `a` ranks
at least as high as `b`.  A stable insertion sort on it orders by
descending similarity with ties kept in input order — the order the claim
describes. -/
def simDescRel (a b : Chunk) : Prop := b.similarity ≤ a.similarity

instance : DecidableRel simDescRel := fun a b =>
  inferInstanceAs (Decidable (b.similarity ≤ a.similarity))

/-- The head of the stable descending insertion sort is the first-occurring
maximum-similarity element, and the rest is the sort of the list with that
occurrence removed. -/
theorem insertionSort_firstMax :
    ∀ (cs : List Chunk) (m : Chunk),
      jsReduceMaxBy (fun c => c.similarity) cs = some m →
      List.insertionSort simDescRel cs =
        m :: List.insertionSort simDescRel (cs.erase m) := by
  intro cs
  induction cs with
  | nil => intro m hm; simp [jsReduceMaxBy] at hm
  | cons c cs' ih =>
    intro m hm
    by_cases hnil : cs' = []
    · subst hnil
      simp only [jsReduceMaxBy, List.foldl_nil, Option.some.injEq] at hm
      subst hm
      simp [List.insertionSort, List.orderedInsert]
    · obtain ⟨m', hm'⟩ := jsReduceMaxBy_some (fun c => c.similarity) hnil
      by_cases hcm : m'.similarity ≤ c.similarity
      · rw [jsReduceMaxBy_cons_of_ge hm' hcm] at hm
        cases hm
        rw [List.erase_cons_head]
        show List.orderedInsert simDescRel c (List.insertionSort simDescRel cs') =
          c :: List.insertionSort simDescRel cs'
        rw [ih m' hm']
        simp [List.orderedInsert, simDescRel, hcm]
      · push_neg at hcm
        rw [jsReduceMaxBy_cons_of_lt hm' hcm] at hm
        cases hm
        have hne : c ≠ m := by
          intro h
          rw [h] at hcm
          exact absurd hcm (lt_irrefl _)
        rw [List.erase_cons_tail (not_beq_of_ne hne)]
        show List.orderedInsert simDescRel c (List.insertionSort simDescRel cs') =
          m :: List.insertionSort simDescRel (c :: cs'.erase m)
        rw [ih m hm']
        have hcond : ¬ simDescRel c m := not_le.mpr hcm
        simp only [List.orderedInsert, if_neg hcond]
        rfl

/-- Forget a chunk's `mmrScore` enrichment. -/
def clearMMR (c : Chunk) : Chunk := { c with mmrScore := none }

theorem clearMMR_of_none {c : Chunk} (h : c.mmrScore = none) : clearMMR c = c := by
  unfold clearMMR
  cases c
  simp_all

/-- With no embeddings among `remaining`, every MMR objective collapses to
`lambda * similarity`, so the loop appends the stable descending-similarity
sort of `remaining` truncated to the remaining budget, each chunk enriched
with `mmrScore = lambda * similarity`. -/
theorem mmrLoop_no_emb (cos : SimFun) {lam : ℚ} (hlam : 0 < lam) (finalK : Nat) :
    ∀ n (selected remaining : List Chunk), remaining.length = n →
      (∀ c ∈ remaining, c.embedding = none) →
      mmrLoop cos lam finalK selected remaining =
        selected ++
          ((List.insertionSort simDescRel remaining).take (finalK - selected.length)).map
            (fun c => { c with mmrScore := some (lam * c.similarity) }) := by
  intro n
  induction n using Nat.strong_induction_on with
  | _ n ih =>
    intro selected remaining hlen hemb
    by_cases hcond : selected.length < finalK ∧ remaining ≠ []
    · obtain ⟨m, hm⟩ := jsReduceMaxBy_some (fun c => c.similarity) hcond.2
      have hobj : jsReduceMaxBy (mmrObjective cos lam selected) remaining = some m := by
        have h1 : jsReduceMaxBy (mmrObjective cos lam selected) remaining
            = jsReduceMaxBy (fun c => lam * c.similarity) remaining :=
          jsReduceMaxBy_congr (fun c hc => mmrObjective_no_emb cos lam selected (hemb c hc))
        rw [h1]
        rw [show (fun c : Chunk => lam * c.similarity)
              = (fun c : Chunk => lam * (fun d : Chunk => d.similarity) c) from rfl]
        rw [jsReduceMaxBy_scale hlam (fun d : Chunk => d.similarity)]
        exact hm
      have hmmem : m ∈ remaining := jsReduceMaxBy_mem hm
      rw [mmrLoop_eq_pick hcond.1 hobj]
      have henrich : ({ m with mmrScore := some (mmrObjective cos lam selected m) } : Chunk)
          = { m with mmrScore := some (lam * m.similarity) } := by
        rw [mmrObjective_no_emb cos lam selected (hemb m hmmem)]
      rw [henrich]
      have herase : (remaining.erase m).length = remaining.length - 1 :=
        List.length_erase_of_mem hmmem
      have hpos : 0 < remaining.length := List.length_pos.mpr hcond.2
      have hembE : ∀ c ∈ remaining.erase m, c.embedding = none :=
        fun c hc => hemb c (List.mem_of_mem_erase hc)
      rw [ih (remaining.erase m).length (by omega) _ (remaining.erase m) rfl hembE]
      rw [insertionSort_firstMax remaining m hm]
      have hlen1 : (selected ++ [({ m with mmrScore := some (lam * m.similarity) } : Chunk)]).length
          = selected.length + 1 := by
        simp
      rw [hlen1]
      have htake : finalK - selected.length = (finalK - (selected.length + 1)) + 1 := by omega
      rw [htake, List.take_succ_cons, List.map_cons]
      simp
    · rw [mmrLoop_eq_stop hcond]
      rcases not_and_or.mp hcond with h | h
      · have h0 : finalK - selected.length = 0 := by omega
        rw [h0]
        simp
      · have : remaining = [] := not_ne_iff.mp h
        subst this
        simp [List.insertionSort]

/-- C10: when no candidate carries an embedding (as for candidates coming
from `search_similar_documents`, whose result table has no embedding
column), `1 <= finalK < |candidates|` and `0 < lambda <= 1`, `applyMMR`
degenerates to plain top-`finalK` relevance selection: modulo the
`mmrScore` enrichment, the output is exactly the `finalK` candidates of
highest `similarity` in descending order, ties kept in input order
(`take finalK` of the stable descending insertion sort). -/
theorem claim_C10_mmr_no_embeddings (cos : SimFun) (qe : Emb) (candidates : List Chunk)
    (finalK : Nat) (lam : ℚ)
    (hemb : ∀ c ∈ candidates, c.embedding = none)
    (hmmr : ∀ c ∈ candidates, c.mmrScore = none)
    (hk1 : 1 ≤ finalK) (hk2 : finalK < candidates.length)
    (hl1 : 0 < lam) (hl2 : lam ≤ 1) :
    (applyMMR cos qe candidates finalK lam).map clearMMR =
      (List.insertionSort simDescRel candidates).take finalK := by
  unfold applyMMR
  rw [if_neg (by omega)]
  have hne : candidates ≠ [] := by
    intro h
    rw [h] at hk2
    simp at hk2
  obtain ⟨m, hm⟩ := jsReduceMaxBy_some (fun c => c.similarity) hne
  rw [hm]
  show (mmrLoop cos lam finalK [m] (candidates.erase m)).map clearMMR =
    (List.insertionSort simDescRel candidates).take finalK
  have hmmem := jsReduceMaxBy_mem hm
  have hembE : ∀ c ∈ candidates.erase m, c.embedding = none :=
    fun c hc => hemb c (List.mem_of_mem_erase hc)
  rw [mmrLoop_no_emb cos hl1 finalK (candidates.erase m).length [m] (candidates.erase m)
    rfl hembE]
  rw [insertionSort_firstMax candidates m hm]
  have hk : finalK = (finalK - 1) + 1 := by omega
  rw [hk, List.take_succ_cons]
  have hlist : finalK - 1 + 1 - List.length [m] = finalK - 1 := by simp
  rw [hlist]
  rw [List.map_append]
  have hhead : ([m] : List Chunk).map clearMMR = [m] := by
    rw [List.map_singleton, clearMMR_of_none (hmmr m hmmem)]
  rw [hhead, List.map_map]
  have htail : ((List.insertionSort simDescRel (candidates.erase m)).take (finalK - 1)).map
      (clearMMR ∘ fun c => { c with mmrScore := some (lam * c.similarity) }) =
      (List.insertionSort simDescRel (candidates.erase m)).take (finalK - 1) := by
    have hid : ∀ c ∈ (List.insertionSort simDescRel (candidates.erase m)).take (finalK - 1),
        (clearMMR ∘ fun c => { c with mmrScore := some (lam * c.similarity) }) c = c := by
      intro c hc
      have hc1 : c ∈ List.insertionSort simDescRel (candidates.erase m) :=
        List.take_subset _ _ hc
      have hc2 : c ∈ candidates.erase m :=
        (List.perm_insertionSort simDescRel (candidates.erase m)).subset hc1
      have hc3 : c ∈ candidates := List.mem_of_mem_erase hc2
      show clearMMR { c with mmrScore := some (lam * c.similarity) } = c
      rw [show (clearMMR { c with mmrScore := some (lam * c.similarity) } : Chunk)
            = clearMMR c from rfl]
      exact clearMMR_of_none (hmmr c hc3)
    calc ((List.insertionSort simDescRel (candidates.erase m)).take (finalK - 1)).map
          (clearMMR ∘ fun c => { c with mmrScore := some (lam * c.similarity) })
        = ((List.insertionSort simDescRel (candidates.erase m)).take (finalK - 1)).map id := by
          exact List.map_congr_left hid
      _ = _ := List.map_id _
  rw [htail]
  rfl

/-- Witness for C10 at a concrete input. -/
theorem claim_C10_mmr_no_embeddings_witness :
    (applyMMR zeroSim [] [chA, chB] 1 (7/10)).map clearMMR =
      (List.insertionSort simDescRel [chA, chB]).take 1 :=
  claim_C10_mmr_no_embeddings zeroSim [] [chA, chB] 1 (7/10)
    (by decide) (by decide) (le_refl 1) (by decide) (by norm_num) (by norm_num)

/-! ## Diversity statistics (`calculateAverageSimilarity`, `calculateDiversityScore`) -/

/-- `VectorRetriever.calculateAverageSimilarity`: mean of `similarity`
(`result.similarity || 0`; our `similarity` field is total). -/
def calculateAverageSimilarity (results : List Chunk) : ℚ :=
  if results.length = 0 then 0
  else (results.foldl (fun acc r => acc + r.similarity) 0) / results.length

/-- The pairwise similarities collected by the double loop of
`calculateDiversityScore`, in loop order: for each `i < j`, the injected
cosine of the two embeddings when both are present, skipped otherwise.
`sum` is the loop's `totalSimilarity` and `length` its `comparisons`. -/
def pairSims (cos : SimFun) : List Chunk → List ℚ
  | [] => []
  | x :: xs =>
      (xs.filterMap (fun y =>
        match x.embedding, y.embedding with
        | some ex, some ey => some (cos ex ey)
        | _, _ => none)) ++ pairSims cos xs

/-- `VectorRetriever.calculateDiversityScore`. -/
def calculateDiversityScore (cos : SimFun) (results : List Chunk) : ℚ :=
  if results.length ≤ 1 then 1
  else
    let sims := pairSims cos results
    let avgSimilarity := if 0 < sims.length then sims.sum / sims.length else 0
    1 - avgSimilarity

/-- C8 (amended): `calculateDiversityScore` is `1` minus the mean of the
pairwise cosine similarities over comparable pairs (both embeddings
present; other pairs excluded), and it defaults to `1` exactly when there
is *no* comparable pair (in particular when `|results| <= 1`).  With
exactly one comparable pair the score is `1` minus that pair's similarity,
not `1` — see the counterexample. -/
theorem claim_C8_diversity_score (cos : SimFun) (results : List Chunk) :
    calculateDiversityScore cos results =
      if pairSims cos results = [] then 1
      else 1 - (pairSims cos results).sum / (pairSims cos results).length := by
  unfold calculateDiversityScore
  by_cases hlen : results.length ≤ 1
  · rw [if_pos hlen]
    have hnil : pairSims cos results = [] := by
      cases results with
      | nil => rfl
      | cons x xs =>
        cases xs with
        | nil => simp [pairSims]
        | cons y ys => simp at hlen
    rw [hnil]
    simp
  · rw [if_neg hlen]
    by_cases hp : pairSims cos results = []
    · rw [if_pos hp]
      simp [hp]
    · rw [if_neg hp]
      have : 0 < (pairSims cos results).length := List.length_pos.mpr hp
      simp [this]

def chE1 : Chunk := { id := "e1", content := "first", embedding := some [1, 0] }

def chE2 : Chunk := { id := "e2", content := "second", embedding := some [1, 0] }

/-- C8 counterexample: with exactly one comparable pair (two chunks with
identical unit embeddings, cosine `1`), the code returns
`1 - 1/1 = 0`, not the claimed default of `1` for "fewer than 2
comparable pairs". -/
theorem claim_C8_counterexample :
    (pairSims dotSim [chE1, chE2]).length = 1 ∧
      calculateDiversityScore dotSim [chE1, chE2] = 0 := by
  have hps : pairSims dotSim [chE1, chE2] = [1] := by
    norm_num [pairSims, chE1, chE2, dotSim, List.filterMap_cons, List.zip_cons_cons]
  constructor
  · rw [hps]
    rfl
  · simp only [calculateDiversityScore, hps]
    norm_num

/-! ## Reciprocal Rank Fusion (`VectorRetriever.reciprocalRankFusion`) -/

/-- An entry of the `scoreMap` in `reciprocalRankFusion`: the merged chunk
(`...result` spread) plus the fusion bookkeeping fields the code adds. -/
structure RRFEntry where
  chunk : Chunk
  rrfScore : ℚ
  denseRank : Option Nat
  sparseRank : Option Nat
  deriving DecidableEq

def entryId (e : RRFEntry) : String := e.chunk.id

def mapIds (m : List RRFEntry) : List String := m.map entryId

/-- JS `Map.prototype.set`: replace the value at an existing key in place
(keeping its insertion position), otherwise append at the end. -/
def mapSet (m : List RRFEntry) (i : String) (e : RRFEntry) : List RRFEntry :=
  match m with
  | [] => [e]
  | x :: xs => if entryId x = i then e :: xs else x :: mapSet xs i e

/-- JS `Map.prototype.get` (by chunk id). -/
def lookupEntry (m : List RRFEntry) (i : String) : Option RRFEntry :=
  m.find? (fun e => entryId e == i)

/-- The `denseResults.forEach` pass: each dense result is `set` with score
`denseWeight / (k + index + 1)`, `denseRank = index + 1`, `sparseRank = null`. -/
def densePass (dW k : ℚ) : List Chunk → Nat → List RRFEntry → List RRFEntry
  | [], _, m => m
  | r :: rest, idx, m =>
      densePass dW k rest (idx + 1)
        (mapSet m r.id
          { chunk := r, rrfScore := dW / (k + (idx : ℚ) + 1),
            denseRank := some (idx + 1), sparseRank := none })

/-- The in-place mutation `existing.rrfScore += rrf; existing.sparseRank = ...`
on the first entry with the given id; `none` when no entry has that id. -/
def mapAddSparse (i : String) (add : ℚ) (srank : Nat) : List RRFEntry → Option (List RRFEntry)
  | [] => none
  | x :: xs =>
      if entryId x = i then
        some ({ x with rrfScore := x.rrfScore + add, sparseRank := some srank } :: xs)
      else
        (mapAddSparse i add srank xs).map (fun ys => x :: ys)

/-- The `sparseResults.forEach` pass: accumulate `sparseWeight / (k + index + 1)`
onto an existing entry, or `set` a fresh entry with `denseRank = null`. -/
def sparsePass (sW k : ℚ) : List Chunk → Nat → List RRFEntry → List RRFEntry
  | [], _, m => m
  | r :: rest, idx, m =>
      let rrf := sW / (k + (idx : ℚ) + 1)
      let m2 := match mapAddSparse r.id rrf (idx + 1) m with
        | some m3 => m3
        | none =>
            m ++ [{ chunk := r, rrfScore := rrf, denseRank := none,
                    sparseRank := some (idx + 1) }]
      sparsePass sW k rest (idx + 1) m2

/-- Descending-`rrfScore` relation: the final
`.sort((a, b) => b.rrfScore - a.rrfScore)` is a stable descending sort. -/
def rrfDescRel (a b : RRFEntry) : Prop := b.rrfScore ≤ a.rrfScore

instance : DecidableRel rrfDescRel := fun a b =>
  inferInstanceAs (Decidable (b.rrfScore ≤ a.rrfScore))

/-- `VectorRetriever.reciprocalRankFusion(denseResults, sparseResults,
denseWeight, sparseWeight, k = 60)`. -/
def reciprocalRankFusion (denseResults sparseResults : List Chunk)
    (denseWeight sparseWeight : ℚ) (k : ℚ := 60) : List RRFEntry :=
  List.insertionSort rrfDescRel
    (sparsePass sparseWeight k sparseResults 0
      (densePass denseWeight k denseResults 0 []))

/-! ### Lookup lemmas for the score map -/

theorem lookupEntry_cons_self {x : RRFEntry} {xs : List RRFEntry} {i : String}
    (hx : entryId x = i) : lookupEntry (x :: xs) i = some x :=
  List.find?_cons_of_pos xs (by simp [hx])

theorem lookupEntry_cons_other {x : RRFEntry} {xs : List RRFEntry} {i : String}
    (hx : entryId x ≠ i) : lookupEntry (x :: xs) i = lookupEntry xs i :=
  List.find?_cons_of_neg xs (by simp [hx])

theorem lookupEntry_mapSet_self {m : List RRFEntry} {i : String} {e : RRFEntry}
    (he : entryId e = i) : lookupEntry (mapSet m i e) i = some e := by
  induction m with
  | nil => exact lookupEntry_cons_self he
  | cons x xs ih =>
    by_cases hx : entryId x = i
    · rw [mapSet, if_pos hx]
      exact lookupEntry_cons_self he
    · rw [mapSet, if_neg hx, lookupEntry_cons_other hx]
      exact ih

theorem lookupEntry_mapSet_other {m : List RRFEntry} {i i' : String} {e : RRFEntry}
    (hne : i' ≠ i) (he : entryId e = i) :
    lookupEntry (mapSet m i e) i' = lookupEntry m i' := by
  have hene : entryId e ≠ i' := by rw [he]; exact fun h => hne h.symm
  induction m with
  | nil =>
    show lookupEntry [e] i' = lookupEntry [] i'
    rw [lookupEntry_cons_other hene]
  | cons x xs ih =>
    by_cases hx : entryId x = i
    · have hxne : entryId x ≠ i' := by rw [hx]; exact fun h => hne h.symm
      rw [mapSet, if_pos hx, lookupEntry_cons_other hene, lookupEntry_cons_other hxne]
    · rw [mapSet, if_neg hx]
      by_cases hx' : entryId x = i'
      · rw [lookupEntry_cons_self hx', lookupEntry_cons_self hx']
      · rw [lookupEntry_cons_other hx', lookupEntry_cons_other hx']
        exact ih

theorem lookupEntry_append_other {m : List RRFEntry} {i : String} {e : RRFEntry}
    (hne : entryId e ≠ i) : lookupEntry (m ++ [e]) i = lookupEntry m i := by
  induction m with
  | nil =>
    show lookupEntry [e] i = lookupEntry [] i
    rw [lookupEntry_cons_other hne]
  | cons x xs ih =>
    rw [List.cons_append]
    by_cases hx : entryId x = i
    · rw [lookupEntry_cons_self hx, lookupEntry_cons_self hx]
    · rw [lookupEntry_cons_other hx, lookupEntry_cons_other hx]
      exact ih

theorem lookupEntry_append_self {m : List RRFEntry} {i : String} {e : RRFEntry}
    (hnone : lookupEntry m i = none) (he : entryId e = i) :
    lookupEntry (m ++ [e]) i = some e := by
  induction m with
  | nil => exact lookupEntry_cons_self he
  | cons x xs ih =>
    by_cases hx : entryId x = i
    · rw [lookupEntry_cons_self hx] at hnone
      cases hnone
    · rw [lookupEntry_cons_other hx] at hnone
      rw [List.cons_append, lookupEntry_cons_other hx]
      exact ih hnone

theorem mapAddSparse_none {m : List RRFEntry} {i : String} {add : ℚ} {srank : Nat}
    (h : lookupEntry m i = none) : mapAddSparse i add srank m = none := by
  induction m with
  | nil => rfl
  | cons x xs ih =>
    by_cases hx : entryId x = i
    · rw [lookupEntry_cons_self hx] at h
      cases h
    · rw [lookupEntry_cons_other hx] at h
      rw [mapAddSparse, if_neg hx, ih h]
      rfl

theorem mapAddSparse_some {m : List RRFEntry} {i : String} {v : ℚ} {w : Nat} {e : RRFEntry}
    (h : lookupEntry m i = some e) :
    ∃ m', mapAddSparse i v w m = some m' ∧
      lookupEntry m' i =
        some { e with rrfScore := e.rrfScore + v, sparseRank := some w } ∧
      (∀ i', i' ≠ i → lookupEntry m' i' = lookupEntry m i') ∧
      mapIds m' = mapIds m := by
  induction m with
  | nil => simp [lookupEntry] at h
  | cons x xs ih =>
    by_cases hx : entryId x = i
    · rw [lookupEntry_cons_self hx] at h
      cases h
      refine ⟨_, by rw [mapAddSparse, if_pos hx], ?_, ?_, ?_⟩
      · exact lookupEntry_cons_self hx
      · intro i' hne
        by_cases hx' : entryId e = i'
        · exact absurd (hx'.symm.trans hx) hne
        · have h1 : entryId
              { e with rrfScore := e.rrfScore + v, sparseRank := some w } ≠ i' := hx'
          rw [lookupEntry_cons_other h1, lookupEntry_cons_other hx']
      · simp [mapIds, entryId]
    · rw [lookupEntry_cons_other hx] at h
      obtain ⟨m', hm', hlook, hother, hids⟩ := ih h
      refine ⟨x :: m', ?_, ?_, ?_, ?_⟩
      · rw [mapAddSparse, if_neg hx, hm']
        rfl
      · rw [lookupEntry_cons_other hx]
        exact hlook
      · intro i' hne
        by_cases hx' : entryId x = i'
        · rw [lookupEntry_cons_self hx', lookupEntry_cons_self hx']
        · rw [lookupEntry_cons_other hx', lookupEntry_cons_other hx']
          exact hother i' hne
      · simp only [mapIds, List.map_cons]
        rw [show m'.map entryId = mapIds m' from rfl, show xs.map entryId = mapIds xs from rfl,
          hids]

theorem densePass_lookup_other (dW k : ℚ) :
    ∀ (l : List Chunk) (idx : Nat) (m : List RRFEntry) (i : String),
      i ∉ l.map Chunk.id →
      lookupEntry (densePass dW k l idx m) i = lookupEntry m i := by
  intro l
  induction l with
  | nil => intro idx m i _; rfl
  | cons r rest ih =>
    intro idx m i hi
    simp only [List.map_cons, List.mem_cons, not_or] at hi
    rw [densePass, ih (idx + 1) _ i hi.2]
    exact lookupEntry_mapSet_other hi.1 rfl

theorem densePass_lookup_found (dW k : ℚ) :
    ∀ (l1 : List Chunk) (x : Chunk) (l2 : List Chunk) (idx : Nat) (m : List RRFEntry),
      x.id ∉ l1.map Chunk.id → x.id ∉ l2.map Chunk.id →
      lookupEntry (densePass dW k (l1 ++ x :: l2) idx m) x.id =
        some { chunk := x, rrfScore := dW / (k + ((idx + l1.length : Nat) : ℚ) + 1),
               denseRank := some (idx + l1.length + 1), sparseRank := none } := by
  intro l1
  induction l1 with
  | nil =>
    intro x l2 idx m _ h2
    rw [List.nil_append, densePass, densePass_lookup_other dW k l2 (idx + 1) _ x.id h2]
    rw [lookupEntry_mapSet_self (m := m) (i := x.id)
      (e := { chunk := x, rrfScore := dW / (k + (idx : ℚ) + 1),
              denseRank := some (idx + 1), sparseRank := none }) rfl]
    simp
  | cons y l1' ih =>
    intro x l2 idx m h1 h2
    simp only [List.map_cons, List.mem_cons, not_or] at h1
    rw [List.cons_append, densePass, ih x l2 (idx + 1) _ h1.2 h2]
    have harith : idx + 1 + l1'.length = idx + (y :: l1').length := by
      simp
      omega
    rw [harith]

theorem sparsePass_lookup_other (sW k : ℚ) :
    ∀ (l : List Chunk) (idx : Nat) (m : List RRFEntry) (i : String),
      i ∉ l.map Chunk.id →
      lookupEntry (sparsePass sW k l idx m) i = lookupEntry m i := by
  intro l
  induction l with
  | nil => intro idx m i _; rfl
  | cons r rest ih =>
    intro idx m i hi
    simp only [List.map_cons, List.mem_cons, not_or] at hi
    simp only [sparsePass]
    cases hadd : mapAddSparse r.id (sW / (k + (idx : ℚ) + 1)) (idx + 1) m with
    | some m3 =>
      rw [ih (idx + 1) m3 i hi.2]
      by_cases hlk : ∃ e, lookupEntry m r.id = some e
      · obtain ⟨e, he⟩ := hlk
        obtain ⟨m', hm', -, hother, -⟩ :=
          mapAddSparse_some (v := sW / (k + (idx : ℚ) + 1)) (w := idx + 1) he
        rw [hm'] at hadd
        cases hadd
        exact hother i hi.1
      · have hnone : lookupEntry m r.id = none := by
          cases h : lookupEntry m r.id with
          | none => rfl
          | some e => exact absurd ⟨e, h⟩ hlk
        rw [mapAddSparse_none hnone] at hadd
        cases hadd
    | none =>
      rw [ih (idx + 1) _ i hi.2]
      exact lookupEntry_append_other (fun h => hi.1 h.symm)

theorem sparsePass_lookup_found (sW k : ℚ) :
    ∀ (l1 : List Chunk) (x : Chunk) (l2 : List Chunk) (idx : Nat) (m : List RRFEntry),
      x.id ∉ l1.map Chunk.id → x.id ∉ l2.map Chunk.id →
      ∃ e, lookupEntry (sparsePass sW k (l1 ++ x :: l2) idx m) x.id = some e ∧
        e.rrfScore = (((lookupEntry m x.id).map RRFEntry.rrfScore).getD 0)
          + sW / (k + ((idx + l1.length : Nat) : ℚ) + 1) := by
  intro l1
  induction l1 with
  | nil =>
    intro x l2 idx m _ h2
    rw [List.nil_append]
    simp only [sparsePass]
    cases hlk : lookupEntry m x.id with
    | some e0 =>
      obtain ⟨m', hm', hself, -, -⟩ :=
        mapAddSparse_some (v := sW / (k + (idx : ℚ) + 1)) (w := idx + 1) hlk
      rw [hm']
      rw [sparsePass_lookup_other sW k l2 (idx + 1) m' x.id h2, hself]
      refine ⟨_, rfl, ?_⟩
      simp
    | none =>
      rw [mapAddSparse_none hlk]
      rw [sparsePass_lookup_other sW k l2 (idx + 1) _ x.id h2]
      rw [lookupEntry_append_self (m := m) (i := x.id)
        (e := { chunk := x, rrfScore := sW / (k + (idx : ℚ) + 1),
                denseRank := none, sparseRank := some (idx + 1) }) hlk rfl]
      refine ⟨_, rfl, ?_⟩
      simp
  | cons y l1' ih =>
    intro x l2 idx m h1 h2
    simp only [List.map_cons, List.mem_cons, not_or] at h1
    rw [List.cons_append]
    simp only [sparsePass]
    have harith : ((idx + 1 + l1'.length : Nat) : ℚ) = ((idx + (y :: l1').length : Nat) : ℚ) := by
      congr 1
      simp
      omega
    cases hadd : mapAddSparse y.id (sW / (k + (idx : ℚ) + 1)) (idx + 1) m with
    | some m3 =>
      obtain ⟨e, he, hsc⟩ := ih x l2 (idx + 1) m3 h1.2 h2
      refine ⟨e, he, ?_⟩
      rw [hsc, harith]
      by_cases hlk : ∃ e0, lookupEntry m y.id = some e0
      · obtain ⟨e0, he0⟩ := hlk
        obtain ⟨m', hm', -, hother, -⟩ :=
          mapAddSparse_some (v := sW / (k + (idx : ℚ) + 1)) (w := idx + 1) he0
        rw [hm'] at hadd
        cases hadd
        rw [hother x.id h1.1]
      · have hnone : lookupEntry m y.id = none := by
          cases h : lookupEntry m y.id with
          | none => rfl
          | some e0 => exact absurd ⟨e0, h⟩ hlk
        rw [mapAddSparse_none hnone] at hadd
        cases hadd
    | none =>
      obtain ⟨e, he, hsc⟩ := ih x l2 (idx + 1) _ h1.2 h2
      refine ⟨e, he, ?_⟩
      rw [hsc, harith]
      rw [lookupEntry_append_other (m := m) (i := x.id)
        (e := { chunk := y, rrfScore := sW / (k + (idx : ℚ) + 1),
                denseRank := none, sparseRank := some (idx + 1) })
        (fun h => h1.1 h.symm)]

theorem mapIds_mapSet_sub {m : List RRFEntry} {i : String} {e : RRFEntry}
    (he : entryId e = i) : ∀ j ∈ mapIds (mapSet m i e), j ∈ mapIds m ∨ j = i := by
  induction m with
  | nil =>
    intro j hj
    simp [mapSet, mapIds, he] at hj
    exact Or.inr hj
  | cons x xs ih =>
    intro j hj
    by_cases hx : entryId x = i
    · rw [mapSet, if_pos hx] at hj
      simp only [mapIds, List.map_cons, List.mem_cons] at hj ⊢
      rcases hj with hj | hj
      · exact Or.inr (hj.trans he)
      · exact Or.inl (Or.inr hj)
    · rw [mapSet, if_neg hx] at hj
      simp only [mapIds, List.map_cons, List.mem_cons] at hj ⊢
      rcases hj with hj | hj
      · exact Or.inl (Or.inl hj)
      · rcases ih j hj with h | h
        · exact Or.inl (Or.inr h)
        · exact Or.inr h

theorem nodup_mapIds_mapSet {m : List RRFEntry} {i : String} {e : RRFEntry}
    (he : entryId e = i) (h : (mapIds m).Nodup) : (mapIds (mapSet m i e)).Nodup := by
  induction m with
  | nil => simp [mapSet, mapIds]
  | cons x xs ih =>
    simp only [mapIds, List.map_cons, List.nodup_cons] at h
    by_cases hx : entryId x = i
    · rw [mapSet, if_pos hx]
      simp only [mapIds, List.map_cons, List.nodup_cons]
      exact ⟨by rw [he, ← hx]; exact h.1, h.2⟩
    · rw [mapSet, if_neg hx]
      simp only [mapIds, List.map_cons, List.nodup_cons]
      refine ⟨?_, ih h.2⟩
      intro hmem
      rcases mapIds_mapSet_sub he _ hmem with h' | h'
      · exact h.1 h'
      · exact hx h'

theorem nodup_mapIds_densePass (dW k : ℚ) :
    ∀ (l : List Chunk) (idx : Nat) (m : List RRFEntry),
      (mapIds m).Nodup → (mapIds (densePass dW k l idx m)).Nodup := by
  intro l
  induction l with
  | nil => intro idx m h; exact h
  | cons r rest ih =>
    intro idx m h
    rw [densePass]
    exact ih (idx + 1) _ (nodup_mapIds_mapSet rfl h)

theorem lookup_none_not_mem {m : List RRFEntry} {i : String}
    (h : lookupEntry m i = none) : i ∉ mapIds m := by
  intro hmem
  obtain ⟨e, hem, hid⟩ := List.mem_map.mp hmem
  have := List.find?_eq_none.mp h e hem
  simp [hid] at this

theorem nodup_mapIds_sparsePass (sW k : ℚ) :
    ∀ (l : List Chunk) (idx : Nat) (m : List RRFEntry),
      (mapIds m).Nodup → (mapIds (sparsePass sW k l idx m)).Nodup := by
  intro l
  induction l with
  | nil => intro idx m h; exact h
  | cons r rest ih =>
    intro idx m h
    simp only [sparsePass]
    cases hadd : mapAddSparse r.id (sW / (k + (idx : ℚ) + 1)) (idx + 1) m with
    | some m3 =>
      refine ih (idx + 1) m3 ?_
      by_cases hlk : ∃ e, lookupEntry m r.id = some e
      · obtain ⟨e, he⟩ := hlk
        obtain ⟨m', hm', -, -, hids⟩ :=
          mapAddSparse_some (v := sW / (k + (idx : ℚ) + 1)) (w := idx + 1) he
        rw [hm'] at hadd
        cases hadd
        rw [hids]
        exact h
      · have hnone : lookupEntry m r.id = none := by
          cases hcase : lookupEntry m r.id with
          | none => rfl
          | some e => exact absurd ⟨e, hcase⟩ hlk
        rw [mapAddSparse_none hnone] at hadd
        cases hadd
    | none =>
      refine ih (idx + 1) _ ?_
      have hnone : lookupEntry m r.id = none := by
        cases hcase : lookupEntry m r.id with
        | none => rfl
        | some e =>
          obtain ⟨m', hm', -, -, -⟩ :=
            mapAddSparse_some (v := sW / (k + (idx : ℚ) + 1)) (w := idx + 1) hcase
          rw [hm'] at hadd
          cases hadd
      have hni : r.id ∉ mapIds m := lookup_none_not_mem hnone
      simp only [mapIds, List.map_append, List.map_singleton]
      rw [List.nodup_append]
      refine ⟨h, List.nodup_singleton _, ?_⟩
      intro a ha hb
      simp only [List.mem_singleton] at hb
      subst hb
      exact hni ha

theorem entry_eq_of_lookup {m : List RRFEntry} (hnodup : (mapIds m).Nodup)
    {i : String} {e e' : RRFEntry}
    (hmem : e ∈ m) (hid : entryId e = i) (hlk : lookupEntry m i = some e') : e = e' := by
  have hmem' : e' ∈ m := List.mem_of_find?_eq_some hlk
  have hid' : entryId e' = i := by
    have := List.find?_some hlk
    simpa using this
  exact List.inj_on_of_nodup_map hnodup hmem hmem' (hid.trans hid'.symm)

theorem firstOcc_ids {l : List Chunk} {j : String} (h : j ∈ l.map Chunk.id) :
    ∃ l1 x l2, l = l1 ++ x :: l2 ∧ x.id = j ∧ j ∉ l1.map Chunk.id := by
  induction l with
  | nil => simp at h
  | cons y ys ih =>
    by_cases hy : y.id = j
    · exact ⟨[], y, ys, rfl, hy, by simp⟩
    · have h' : j ∈ ys.map Chunk.id := by
        simp only [List.map_cons, List.mem_cons] at h
        rcases h with h | h
        · exact absurd h.symm hy
        · exact h
      obtain ⟨l1, x, l2, hdec, hx, hnot⟩ := ih h'
      refine ⟨y :: l1, x, l2, by rw [hdec]; rfl, hx, ?_⟩
      simp only [List.map_cons, List.mem_cons, not_or]
      exact ⟨fun hh => hy hh.symm, hnot⟩

theorem not_mem_tailIds_of_nodup {l l1 l2 : List Chunk} {x : Chunk}
    (hdec : l = l1 ++ x :: l2) (hnodup : (l.map Chunk.id).Nodup) :
    x.id ∉ l2.map Chunk.id := by
  rw [hdec, List.map_append, List.map_cons] at hnodup
  have h := List.nodup_append.mp hnodup
  exact (List.nodup_cons.mp h.2.1).1

/-- Score of the id that opens both ranked lists: `dW/(k+1) + sW/(k+1)`. -/
theorem buildMap_score_both (dW sW k : ℚ) (d0 s0 : Chunk) (dr sr : List Chunk)
    (hnd : ((d0 :: dr).map Chunk.id).Nodup) (hns : ((s0 :: sr).map Chunk.id).Nodup)
    (hi : s0.id = d0.id) :
    ∃ e, lookupEntry (sparsePass sW k (s0 :: sr) 0 (densePass dW k (d0 :: dr) 0 [])) s0.id
        = some e ∧ e.rrfScore = dW / (k + 1) + sW / (k + 1) := by
  have hd0 : d0.id ∉ dr.map Chunk.id := by
    rw [List.map_cons, List.nodup_cons] at hnd
    exact hnd.1
  have hs0 : s0.id ∉ sr.map Chunk.id := by
    rw [List.map_cons, List.nodup_cons] at hns
    exact hns.1
  have hdl := densePass_lookup_found dW k [] d0 dr 0 [] (by simp) hd0
  rw [List.nil_append] at hdl
  obtain ⟨e, he, hsc⟩ := sparsePass_lookup_found sW k [] s0 sr 0
    (densePass dW k (d0 :: dr) 0 []) (by simp) hs0
  rw [List.nil_append] at he
  refine ⟨e, he, ?_⟩
  rw [hsc, hi, hdl]
  norm_num

/-- Score of an id that opens the dense list but not the sparse list:
strictly below `dW/(k+1) + sW/(k+1)`. -/
theorem buildMap_score_dense_head (dW sW k : ℚ) (hd : 0 < dW) (hs : 0 < sW) (hk : 0 ≤ k)
    (d0 : Chunk) (dr sparse : List Chunk)
    (hnd : ((d0 :: dr).map Chunk.id).Nodup) (hns : (sparse.map Chunk.id).Nodup)
    (hhead : ∀ s0 ∈ sparse.head?, s0.id ≠ d0.id) :
    ∃ e, lookupEntry (sparsePass sW k sparse 0 (densePass dW k (d0 :: dr) 0 [])) d0.id
        = some e ∧ e.rrfScore < dW / (k + 1) + sW / (k + 1) := by
  have hk1 : (0 : ℚ) < k + 1 := by linarith
  have hd0 : d0.id ∉ dr.map Chunk.id := by
    rw [List.map_cons, List.nodup_cons] at hnd
    exact hnd.1
  have hdl := densePass_lookup_found dW k [] d0 dr 0 [] (by simp) hd0
  rw [List.nil_append] at hdl
  by_cases hmem : d0.id ∈ sparse.map Chunk.id
  · obtain ⟨l1, x, l2, hdec, hx, hl1⟩ := firstOcc_ids hmem
    have hl2 : x.id ∉ l2.map Chunk.id := not_mem_tailIds_of_nodup hdec hns
    have hl1' : x.id ∉ l1.map Chunk.id := by rw [hx]; exact hl1
    have hlen : 1 ≤ l1.length := by
      rcases l1 with - | ⟨y, l1'⟩
      · exfalso
        refine hhead x ?_ hx
        rw [hdec]
        rfl
      · simp
    rw [hdec]
    obtain ⟨e, he, hsc⟩ := sparsePass_lookup_found sW k l1 x l2 0
      (densePass dW k (d0 :: dr) 0 []) hl1' hl2
    rw [hx] at he hsc
    refine ⟨e, he, ?_⟩
    rw [hsc, hdl]
    have hlt : sW / (k + ((0 + l1.length : Nat) : ℚ) + 1) < sW / (k + 1) := by
      have hcast : (1 : ℚ) ≤ ((0 + l1.length : Nat) : ℚ) :=
        by exact_mod_cast (by omega : 1 ≤ 0 + l1.length)
      refine div_lt_div_of_pos_left hs hk1 ?_
      linarith
    simp only [Option.map_some', Option.getD_some]
    have heq : dW / (k + ((0 + ([] : List Chunk).length : Nat) : ℚ) + 1) = dW / (k + 1) := by
      norm_num
    rw [heq]
    linarith
  · have hlk : lookupEntry (sparsePass sW k sparse 0 (densePass dW k (d0 :: dr) 0 [])) d0.id
        = lookupEntry (densePass dW k (d0 :: dr) 0 []) d0.id :=
      sparsePass_lookup_other sW k sparse 0 _ d0.id hmem
    rw [hlk, hdl]
    refine ⟨_, rfl, ?_⟩
    show dW / (k + ((0 + ([] : List Chunk).length : Nat) : ℚ) + 1)
      < dW / (k + 1) + sW / (k + 1)
    have h2 : 0 < sW / (k + 1) := div_pos hs hk1
    have heq : dW / (k + ((0 + ([] : List Chunk).length : Nat) : ℚ) + 1)
        = dW / (k + 1) := by norm_num
    rw [heq]
    linarith

/-- Score of an id that opens the sparse list but not the dense list:
strictly below `dW/(k+1) + sW/(k+1)`. -/
theorem buildMap_score_sparse_head (dW sW k : ℚ) (hd : 0 < dW) (hs : 0 < sW) (hk : 0 ≤ k)
    (s0 : Chunk) (sr dense : List Chunk)
    (hnd : (dense.map Chunk.id).Nodup) (hns : ((s0 :: sr).map Chunk.id).Nodup)
    (hhead : ∀ d0 ∈ dense.head?, d0.id ≠ s0.id) :
    ∃ e, lookupEntry (sparsePass sW k (s0 :: sr) 0 (densePass dW k dense 0 [])) s0.id
        = some e ∧ e.rrfScore < dW / (k + 1) + sW / (k + 1) := by
  have hk1 : (0 : ℚ) < k + 1 := by linarith
  have hs0 : s0.id ∉ sr.map Chunk.id := by
    rw [List.map_cons, List.nodup_cons] at hns
    exact hns.1
  obtain ⟨e, he, hsc⟩ := sparsePass_lookup_found sW k [] s0 sr 0
    (densePass dW k dense 0 []) (by simp) hs0
  rw [List.nil_append] at he
  refine ⟨e, he, ?_⟩
  rw [hsc]
  have hsw : sW / (k + ((0 + ([] : List Chunk).length : Nat) : ℚ) + 1) = sW / (k + 1) := by
    norm_num
  by_cases hmem : s0.id ∈ dense.map Chunk.id
  · obtain ⟨l1, x, l2, hdec, hx, hl1⟩ := firstOcc_ids hmem
    have hl2 : x.id ∉ l2.map Chunk.id := not_mem_tailIds_of_nodup hdec hnd
    have hl1' : x.id ∉ l1.map Chunk.id := by rw [hx]; exact hl1
    have hlen : 1 ≤ l1.length := by
      rcases l1 with - | ⟨y, l1'⟩
      · exfalso
        refine hhead x ?_ hx
        rw [hdec]
        rfl
      · simp
    have hdl := densePass_lookup_found dW k l1 x l2 0 [] hl1' hl2
    rw [← hdec, hx] at hdl
    rw [hdl]
    simp only [Option.map_some', Option.getD_some]
    rw [hsw]
    have hlt : dW / (k + ((0 + l1.length : Nat) : ℚ) + 1) < dW / (k + 1) := by
      have hcast : (1 : ℚ) ≤ ((0 + l1.length : Nat) : ℚ) :=
        by exact_mod_cast (by omega : 1 ≤ 0 + l1.length)
      refine div_lt_div_of_pos_left hd hk1 ?_
      linarith
    linarith
  · rw [densePass_lookup_other dW k dense 0 [] s0.id hmem]
    have hnone : lookupEntry [] s0.id = none := rfl
    rw [hnone, hsw]
    have h2 : 0 < dW / (k + 1) := div_pos hd hk1
    simp only [Option.map_none', Option.getD_none]
    linarith

/-- Every entry of the fused output with a given id equals the unique map
entry with that id (the stable sort is a permutation of the score map, and
the map's ids are nodup). -/
theorem rrf_output_char (dense sparse : List Chunk) (dW sW k : ℚ) {i : String} {e : RRFEntry}
    (hlk : lookupEntry (sparsePass sW k sparse 0 (densePass dW k dense 0 [])) i = some e) :
    e ∈ reciprocalRankFusion dense sparse dW sW k ∧ entryId e = i ∧
      ∀ e' ∈ reciprocalRankFusion dense sparse dW sW k, entryId e' = i → e' = e := by
  have hnodup : (mapIds (sparsePass sW k sparse 0 (densePass dW k dense 0 []))).Nodup :=
    nodup_mapIds_sparsePass sW k sparse 0 _
      (nodup_mapIds_densePass dW k dense 0 [] (by simp [mapIds]))
  have hperm := List.perm_insertionSort rrfDescRel
    (sparsePass sW k sparse 0 (densePass dW k dense 0 []))
  have hmemM : e ∈ sparsePass sW k sparse 0 (densePass dW k dense 0 []) :=
    List.mem_of_find?_eq_some hlk
  have hidE : entryId e = i := by
    have := List.find?_some hlk
    simpa using this
  refine ⟨hperm.mem_iff.mpr hmemM, hidE, ?_⟩
  intro e' hmem' hid'
  exact entry_eq_of_lookup hnodup (hperm.mem_iff.mp hmem') hid' hlk

/-- C7: with positive weights, a chunk ranked #1 in both the dense and the
sparse list receives fused score `dW/(k+1) + sW/(k+1)`, and that is
strictly greater than the fused score of any chunk ranked #1 in only one
of the two lists (whether or not it appears deeper in the other). -/
theorem claim_C7_rrf_rank1 (dW sW k : ℚ) (hd : 0 < dW) (hs : 0 < sW) (hk : 0 ≤ k) :
    (∀ (d0 s0 : Chunk) (dr sr : List Chunk),
        ((d0 :: dr).map Chunk.id).Nodup → ((s0 :: sr).map Chunk.id).Nodup →
        s0.id = d0.id →
        (∃ e ∈ reciprocalRankFusion (d0 :: dr) (s0 :: sr) dW sW k,
            entryId e = s0.id ∧ e.rrfScore = dW / (k + 1) + sW / (k + 1)) ∧
        ∀ e ∈ reciprocalRankFusion (d0 :: dr) (s0 :: sr) dW sW k,
          entryId e = s0.id → e.rrfScore = dW / (k + 1) + sW / (k + 1)) ∧
    (∀ (d0 : Chunk) (dr sparse : List Chunk),
        ((d0 :: dr).map Chunk.id).Nodup → (sparse.map Chunk.id).Nodup →
        (∀ s0 ∈ sparse.head?, s0.id ≠ d0.id) →
        ∀ e ∈ reciprocalRankFusion (d0 :: dr) sparse dW sW k,
          entryId e = d0.id → e.rrfScore < dW / (k + 1) + sW / (k + 1)) ∧
    (∀ (s0 : Chunk) (sr dense : List Chunk),
        (dense.map Chunk.id).Nodup → ((s0 :: sr).map Chunk.id).Nodup →
        (∀ d0 ∈ dense.head?, d0.id ≠ s0.id) →
        ∀ e ∈ reciprocalRankFusion dense (s0 :: sr) dW sW k,
          entryId e = s0.id → e.rrfScore < dW / (k + 1) + sW / (k + 1)) := by
  refine ⟨?_, ?_, ?_⟩
  · intro d0 s0 dr sr hnd hns hi
    obtain ⟨e, he, hsc⟩ := buildMap_score_both dW sW k d0 s0 dr sr hnd hns hi
    obtain ⟨hmem, hid, huniq⟩ := rrf_output_char (d0 :: dr) (s0 :: sr) dW sW k he
    refine ⟨⟨e, hmem, hid, hsc⟩, ?_⟩
    intro e' hm' hid'
    rw [huniq e' hm' hid']
    exact hsc
  · intro d0 dr sparse hnd hns hhead e hm hid
    obtain ⟨e0, he0, hlt⟩ :=
      buildMap_score_dense_head dW sW k hd hs hk d0 dr sparse hnd hns hhead
    obtain ⟨-, -, huniq⟩ := rrf_output_char (d0 :: dr) sparse dW sW k he0
    rw [huniq e hm hid]
    exact hlt
  · intro s0 sr dense hnd hns hhead e hm hid
    obtain ⟨e0, he0, hlt⟩ :=
      buildMap_score_sparse_head dW sW k hd hs hk s0 sr dense hnd hns hhead
    obtain ⟨-, -, huniq⟩ := rrf_output_char dense (s0 :: sr) dW sW k he0
    rw [huniq e hm hid]
    exact hlt

/-- Witness for C7 at the default weights `0.7`/`0.3` and `k = 60`. -/
theorem claim_C7_rrf_rank1_witness :
    (∀ (d0 s0 : Chunk) (dr sr : List Chunk),
        ((d0 :: dr).map Chunk.id).Nodup → ((s0 :: sr).map Chunk.id).Nodup →
        s0.id = d0.id →
        (∃ e ∈ reciprocalRankFusion (d0 :: dr) (s0 :: sr) (7/10) (3/10) 60,
            entryId e = s0.id ∧ e.rrfScore = (7/10) / (60 + 1) + (3/10) / (60 + 1)) ∧
        ∀ e ∈ reciprocalRankFusion (d0 :: dr) (s0 :: sr) (7/10) (3/10) 60,
          entryId e = s0.id → e.rrfScore = (7/10) / (60 + 1) + (3/10) / (60 + 1)) ∧
    (∀ (d0 : Chunk) (dr sparse : List Chunk),
        ((d0 :: dr).map Chunk.id).Nodup → (sparse.map Chunk.id).Nodup →
        (∀ s0 ∈ sparse.head?, s0.id ≠ d0.id) →
        ∀ e ∈ reciprocalRankFusion (d0 :: dr) sparse (7/10) (3/10) 60,
          entryId e = d0.id → e.rrfScore < (7/10) / (60 + 1) + (3/10) / (60 + 1)) ∧
    (∀ (s0 : Chunk) (sr dense : List Chunk),
        (dense.map Chunk.id).Nodup → ((s0 :: sr).map Chunk.id).Nodup →
        (∀ d0 ∈ dense.head?, d0.id ≠ s0.id) →
        ∀ e ∈ reciprocalRankFusion dense (s0 :: sr) (7/10) (3/10) 60,
          entryId e = s0.id → e.rrfScore < (7/10) / (60 + 1) + (3/10) / (60 + 1)) :=
  claim_C7_rrf_rank1 (7/10) (3/10) 60 (by norm_num) (by norm_num) (by norm_num)

/-! ## Reranking service (`src/services/rerankingService.js`) -/

/-- One item of a Cohere v2 rerank response: a 0-based `index` into the
documents sent, a `relevanceScore`, and (with `returnDocuments`) the
echoed document text (`result.document?.text`; `none` models an absent
document object). -/
structure RerankResultItem where
  index : Nat
  relevanceScore : ℚ
  document : Option String := none
  deriving DecidableEq

structure RerankResponse where
  results : List RerankResultItem
  deriving DecidableEq

/-- Does `pat` match at the head of `s`? -/
def matchAt : List Char → List Char → Bool
  | _, [] => true
  | [], _ :: _ => false
  | a :: as, b :: bs => a == b && matchAt as bs

/-- Substring scan over char lists. -/
def hasSub (pat : List Char) : List Char → Bool
  | [] => matchAt [] pat
  | a :: as => matchAt (a :: as) pat || hasSub pat as

/-- JS `String.prototype.includes`. -/
def jsIncludes (s pat : String) : Bool := hasSub pat.data s.data

/-- JS `String.prototype.trim`, modelled directly on the char list
(whitespace stripped from both ends). -/
def jsTrim (s : String) : String :=
  ⟨((s.data.dropWhile Char.isWhitespace).reverse.dropWhile Char.isWhitespace).reverse⟩

/-- The error classification at the end of `callCohereRerank` (after
retries are exhausted). -/
def classifyCohereError (msg : String) : String :=
  if jsIncludes msg "rate limit" then
    "Cohere API rate limit exceeded. Please try again later."
  else if jsIncludes msg "invalid" then
    "Invalid request to Cohere API. Check query and documents."
  else
    "Cohere API error: " ++ msg

/-- `this.retryAttempts` (constructor). -/
def retryAttempts : Nat := 3

/-- `this.retryDelay` in ms (constructor). -/
def retryDelay : Nat := 1000

/-- The retry recursion of `callCohereRerank`, phrased structurally on the
number of retries left (`retryAttempts - attempt`); the JS code re-checks
`attempt < this.retryAttempts`, which equals `0 < left` throughout, so the
two formulations coincide.  The external `cohere.v2.rerank` call is the
`oracle`, indexed by the attempt number; alongside the outcome we return
the list of backoff delays performed (`delay = retryDelay * attempt`
before each retry). -/
def cohereAttempts (oracle : Nat → Except String RerankResponse) :
    Nat → Nat → Except String RerankResponse × List Nat
  | attempt, left =>
      match oracle attempt with
      | .ok resp => (.ok resp, [])
      | .error e =>
          match left with
          | 0 => (.error (classifyCohereError e), [])
          | left' + 1 =>
              ((cohereAttempts oracle (attempt + 1) left').1,
                (retryDelay * attempt) :: (cohereAttempts oracle (attempt + 1) left').2)

/-- `RerankingService.callCohereRerank(query, documents, options, attempt = 1)`,
with the call outcome abstracted per attempt. -/
def callCohereRerank (oracle : Nat → Except String RerankResponse) (attempt : Nat) :
    Except String RerankResponse × List Nat :=
  cohereAttempts oracle attempt (retryAttempts - attempt)

/-- `RERANK_CONFIG.maxChunksLength` (`config/cohere.js`). -/
def maxChunksLength : Nat := 4096

/-- JS `content.substring(0, n)`. -/
def jsSubstringTo (s : String) (n : Nat) : String := ⟨s.data.take n⟩

/-- `RerankingService.prepareDocuments`: pick
`chunk.content || chunk.text || ''`, truncate to the configured maximum
with an ellipsis marker; the Cohere v2 document wrapper `{ text }` is
represented by the text itself. -/
def prepareDocuments (maxChunkLength : Nat) (truncateChunks : Bool)
    (chunks : List Chunk) : List String :=
  chunks.map (fun chunk =>
    let content := if chunk.content ≠ "" then chunk.content
      else if chunk.text ≠ "" then chunk.text else ""
    if truncateChunks ∧ content.length > maxChunkLength then
      jsSubstringTo content maxChunkLength ++ "..."
    else content)

/-- The body of the `processRerankResults` map for one response item
(`newRank` is the 0-based position in the response).  `none` models the
`TypeError` the JS code would throw when `result.index` is out of range of
the original chunks.  The per-chunk display `metadata` record the code
also attaches is not modelled (no claim reads it; it does not touch `id`
or `content`). -/
def processOneRerank (originalChunks : List Chunk) (includeOriginalRank : Bool)
    (newRank : Nat) (r : RerankResultItem) : Option Chunk :=
  match originalChunks.get? r.index with
  | none => none
  | some orig => some { orig with
      content := (match r.document with
        | some t => if t ≠ "" then t else orig.content
        | none => orig.content),
      rerankScore := some r.relevanceScore,
      rerankRank := some (newRank + 1),
      originalRank := if includeOriginalRank then some (r.index + 1) else orig.originalRank,
      rankImprovement := if includeOriginalRank then
          some ((r.index : Int) + 1 - ((newRank : Int) + 1))
        else orig.rankImprovement }

/-- `RerankingService.processRerankResults`. -/
def processRerankResults (resp : RerankResponse) (originalChunks : List Chunk)
    (includeOriginalRank : Bool) : Option (List Chunk) :=
  resp.results.enum.mapM
    (fun p => processOneRerank originalChunks includeOriginalRank p.1 p.2)

/-- `RerankingService.validateInputs`: returns the thrown message, `none`
when the inputs are accepted. -/
def validateInputs (query : String) (chunks : List Chunk) (topN : Nat) : Option String :=
  if jsTrim query = "" then some "Query is required and must be a non-empty string"
  else if chunks.length = 0 then some "Chunks must be a non-empty array"
  else if topN < 1 ∨ topN > 100 then some "topN must be between 1 and 100"
  else
    let invalidChunks := chunks.filter (fun c => c.content == "" && c.text == "")
    if invalidChunks.length > 0 then
      some (toString invalidChunks.length ++ " chunks missing content/text field")
    else none

/-- The statistics of `calculateRerankingStats` that the pipeline metadata
exposes (`avgRerankScore`, `reorderingRate`, `significantRankChanges`);
the remaining aggregates are not read by any claim and are elided.
Division is exact rational division. -/
structure RerankStats where
  avgRerankScore : ℚ
  significantRankChanges : Nat
  reorderingRate : ℚ
  deriving DecidableEq

def calculateRerankingStats (originalChunks rerankedChunks : List Chunk) : RerankStats :=
  let rankChanges := rerankedChunks.map (fun c => c.rankImprovement.getD 0)
  let significant := (rankChanges.filter (fun change => 2 ≤ change.natAbs)).length
  { avgRerankScore :=
      (rerankedChunks.map (fun c => (c.rerankScore.getD 0))).sum / rerankedChunks.length,
    significantRankChanges := significant,
    reorderingRate := (significant : ℚ) / rerankedChunks.length }

/-- The record returned by `rerankChunks` (the `metadata` envelope carries
`model`/`topN`/`stats`; only `stats` is read downstream and modelled). -/
structure RerankChunksResult where
  query : String
  originalCount : Nat
  rerankedCount : Nat
  results : List Chunk
  stats : RerankStats
  deriving DecidableEq

/-- `RerankingService.rerankChunks`.  `cohereCall` abstracts
`cohere.v2.rerank` as a function of the trimmed query, the prepared
documents, the capped `topN` and the attempt number; every failure inside
the `try` block is rethrown as `Reranking failed: <message>`. -/
def rerankChunks (cohereCall : String → List String → Nat → Nat → Except String RerankResponse)
    (query : String) (chunks : List Chunk) (topN : Nat)
    (includeOriginalRank truncateChunks : Bool) : Except String RerankChunksResult :=
  match validateInputs query chunks topN with
  | some msg => .error ("Reranking failed: " ++ msg)
  | none =>
      let documents := prepareDocuments maxChunksLength truncateChunks chunks
      match (callCohereRerank (cohereCall (jsTrim query) documents (min topN chunks.length)) 1).1 with
      | .error e => .error ("Reranking failed: " ++ e)
      | .ok resp =>
          match processRerankResults resp chunks includeOriginalRank with
          | none => .error ("Reranking failed: TypeError")
          | some results =>
              .ok { query := query, originalCount := chunks.length,
                    rerankedCount := results.length, results := results,
                    stats := calculateRerankingStats chunks results }

/-! ## The retrieval pipelines (`retrieveWithMMR`, `retrieveWithMMRAndRerank`) -/

/-- `VectorRetriever.formatResults`: a fresh record keeping the listed
fields plus a 1-based `rank`; everything else (`embedding`, top-level
`mmrScore`, `text`, rerank fields) is dropped — modelled as the default
values.  The optional per-chunk display `metadata` record (token counts
etc.) is not modelled: no claim and no downstream code under study reads
it, so the `includeMetadata` flag has no observable effect here. -/
def formatResults (results : List Chunk) (includeMetadata : Bool) : List Chunk :=
  results.enum.map (fun p =>
    { id := p.2.id, content := p.2.content, source := p.2.source, title := p.2.title,
      sectionName := p.2.sectionName, position := p.2.position,
      similarity := p.2.similarity, rank := some (p.1 + 1) })

/-- `VectorRetriever.retrieveTopKCandidates`, with the Supabase RPC
abstracted as its outcome.  On `{ error }` the code throws
`Database query failed: ...`; on success each row keeps
`embedding: candidate.embedding || null` (the identity under the `Option`
model) and gains a `queryEmbedding` field that no later code reads. -/
def retrieveTopKCandidates (searchOutcome : Except String (List Chunk)) :
    Except String (List Chunk) :=
  match searchOutcome with
  | .error e => .error ("Database query failed: " ++ e)
  | .ok data => .ok data

/-- The metadata record of `retrieveWithMMR`; on the empty-candidates
early return the two score fields are absent. -/
structure MMRMetadata where
  candidatesFound : Nat
  finalResults : Nat
  mmrApplied : Bool
  avgSimilarity : Option ℚ := none
  diversityScore : Option ℚ := none
  deriving DecidableEq

structure MMRResult where
  query : String
  results : List Chunk
  metadata : MMRMetadata
  deriving DecidableEq

/-- `VectorRetriever.retrieveWithMMR`, with the external embedding call
and vector search given as outcomes; `topK` and `threshold` parameterise
the (already abstracted) search, and are kept for signature fidelity. -/
def retrieveWithMMR (cos : SimFun)
    (embedOutcome : Except String Emb) (searchOutcome : Except String (List Chunk))
    (query : String) (topK finalK : Nat) (lam threshold : ℚ)
    (includeMetadata : Bool) : Except String MMRResult :=
  match embedOutcome with
  | .error e => .error ("Vector retrieval failed: " ++ e)
  | .ok queryEmbedding =>
      match retrieveTopKCandidates searchOutcome with
      | .error e => .error ("Vector retrieval failed: " ++ e)
      | .ok candidates =>
          if candidates.length = 0 then
            .ok { query := query, results := [],
                  metadata := { candidatesFound := 0, finalResults := 0,
                                mmrApplied := false } }
          else
            .ok { query := query,
                  results := formatResults (applyMMR cos queryEmbedding candidates finalK lam)
                    includeMetadata,
                  metadata := { candidatesFound := candidates.length,
                                finalResults :=
                                  (applyMMR cos queryEmbedding candidates finalK lam).length,
                                mmrApplied := true,
                                avgSimilarity := some (calculateAverageSimilarity
                                  (applyMMR cos queryEmbedding candidates finalK lam)),
                                diversityScore := some (calculateDiversityScore cos
                                  (applyMMR cos queryEmbedding candidates finalK lam)) } }

/-- The pipeline metadata of `retrieveWithMMRAndRerank` (`mmrMetadata` /
`rerankMetadata` sub-records elided; note there is no `rerankingSkipped`
field anywhere). -/
structure CompleteMetadata where
  pipeline : String
  totalCandidates : Nat
  mmrResults : Nat
  finalResults : Nat
  avgRerankScore : ℚ
  reorderingRate : ℚ
  deriving DecidableEq

structure CompleteResult where
  query : String
  results : List Chunk
  metadata : CompleteMetadata
  deriving DecidableEq

/-- The two possible success shapes of the complete pipeline: the early
return of the plain MMR result (reranking disabled or no MMR results), or
the reranked result. -/
inductive PipelineOutput where
  | mmrOnly (r : MMRResult)
  | reranked (r : CompleteResult)
  deriving DecidableEq

/-- `VectorRetriever.retrieveWithMMRAndRerank`.  Any error raised inside
the `try` block — including a reranking failure — is rethrown as
`Complete retrieval failed: <message>`. -/
def retrieveWithMMRAndRerank (cos : SimFun)
    (embedOutcome : Except String Emb) (searchOutcome : Except String (List Chunk))
    (cohereCall : String → List String → Nat → Nat → Except String RerankResponse)
    (query : String) (topK finalK rerankTopN : Nat) (lam threshold : ℚ)
    (includeMetadata useReranking : Bool) : Except String PipelineOutput :=
  match retrieveWithMMR cos embedOutcome searchOutcome query topK finalK lam threshold false with
  | .error e => .error ("Complete retrieval failed: " ++ e)
  | .ok mmrResults =>
      if useReranking = false ∨ mmrResults.results.length = 0 then
        .ok (.mmrOnly mmrResults)
      else
        match rerankChunks cohereCall query mmrResults.results
            (min rerankTopN mmrResults.results.length) true true with
        | .error e => .error ("Complete retrieval failed: " ++ e)
        | .ok rr =>
            .ok (.reranked
              { query := query,
                results := formatResults rr.results includeMetadata,
                metadata := { pipeline := "mmr_rerank",
                              totalCandidates := mmrResults.metadata.candidatesFound,
                              mmrResults := mmrResults.results.length,
                              finalResults := rr.results.length,
                              avgRerankScore := rr.stats.avgRerankScore,
                              reorderingRate := rr.stats.reorderingRate } })

/-! ## Claim C9: retry behaviour of `callCohereRerank` -/

theorem cohereAttempts_ok {oracle : Nat → Except String RerankResponse}
    {attempt left : Nat} {resp : RerankResponse} (h : oracle attempt = .ok resp) :
    cohereAttempts oracle attempt left = (.ok resp, []) := by
  rw [cohereAttempts, h]

theorem cohereAttempts_exhaust {oracle : Nat → Except String RerankResponse}
    {attempt : Nat} {e : String} (h : oracle attempt = .error e) :
    cohereAttempts oracle attempt 0 = (.error (classifyCohereError e), []) := by
  rw [cohereAttempts, h]

theorem cohereAttempts_retry {oracle : Nat → Except String RerankResponse}
    {attempt left left' : Nat} {e : String}
    (h : oracle attempt = .error e) (hleft : left = left' + 1) :
    cohereAttempts oracle attempt left =
      ((cohereAttempts oracle (attempt + 1) left').1,
        (retryDelay * attempt) :: (cohereAttempts oracle (attempt + 1) left').2) := by
  rw [hleft, cohereAttempts, h]

/-- With attempts `1`, `2`, `3` failing, the call performs exactly those
attempts, sleeps `retryDelay * 1` and `retryDelay * 2` between them, and
raises the classification of the *last* attempt's message. -/
theorem callCohereRerank_fail3 {oracle : Nat → Except String RerankResponse}
    {e1 e2 e3 : String}
    (hf1 : oracle 1 = .error e1) (hf2 : oracle 2 = .error e2) (hf3 : oracle 3 = .error e3) :
    callCohereRerank oracle 1 =
      (.error (classifyCohereError e3), [retryDelay * 1, retryDelay * 2]) := by
  show cohereAttempts oracle 1 (retryAttempts - 1) = _
  rw [show retryAttempts - 1 = 2 from rfl]
  rw [cohereAttempts_retry hf1 rfl, cohereAttempts_retry hf2 rfl,
    cohereAttempts_exhaust hf3]

/-- C9 (amended): on failures, `callCohereRerank` makes up to `3` attempts
in total — i.e. up to `2` retries, not the claimed `3` — with backoff
delay `retryDelay * attempt` before each retry; once attempts `1..3` fail
the outcome is fixed (the oracle is never consulted beyond attempt `3`),
and the raised error is the typed classification (rate-limit /
invalid-request / other) of the last failure rather than being silently
swallowed. -/
theorem claim_C9_cohere_retry (oracle : Nat → Except String RerankResponse)
    (e1 e2 e3 : String)
    (hf1 : oracle 1 = .error e1) (hf2 : oracle 2 = .error e2) (hf3 : oracle 3 = .error e3) :
    (∀ oracle2 : Nat → Except String RerankResponse,
      (∀ n, 1 ≤ n → n ≤ retryAttempts → oracle n = oracle2 n) →
      callCohereRerank oracle 1 = callCohereRerank oracle2 1) ∧
    callCohereRerank oracle 1 =
      (.error (classifyCohereError e3), [retryDelay * 1, retryDelay * 2]) := by
  refine ⟨?_, callCohereRerank_fail3 hf1 hf2 hf3⟩
  intro oracle2 hsame
  have hg1 : oracle2 1 = .error e1 := by
    rw [← hsame 1 (by omega) (by simp [retryAttempts])]
    exact hf1
  have hg2 : oracle2 2 = .error e2 := by
    rw [← hsame 2 (by omega) (by simp [retryAttempts])]
    exact hf2
  have hg3 : oracle2 3 = .error e3 := by
    rw [← hsame 3 (by omega) (by simp [retryAttempts])]
    exact hf3
  rw [callCohereRerank_fail3 hf1 hf2 hf3, callCohereRerank_fail3 hg1 hg2 hg3]

/-- Witness for the amended C9. -/
theorem claim_C9_cohere_retry_witness :
    (∀ oracle2 : Nat → Except String RerankResponse,
      (∀ n, 1 ≤ n → n ≤ retryAttempts →
        (fun _ => (.error "boom" : Except String RerankResponse)) n = oracle2 n) →
      callCohereRerank (fun _ => .error "boom") 1 = callCohereRerank oracle2 1) ∧
    callCohereRerank (fun _ => .error "boom") 1 =
      (.error (classifyCohereError "boom"), [retryDelay * 1, retryDelay * 2]) :=
  claim_C9_cohere_retry (fun _ => .error "boom") "boom" "boom" "boom" rfl rfl rfl

/-- An oracle that would succeed on a 4th attempt. -/
def cexOracle : Nat → Except String RerankResponse :=
  fun n => if 4 ≤ n then .ok { results := [] } else .error "boom"

/-- C9 counterexample: the claim says the failed call is retried up to 3
times (which would mean a 4th attempt).  With an oracle that fails on
attempts 1–3 and would succeed on attempt 4, the code still gives up with
an error after the 3rd attempt and after only two backoff delays
(1000 ms, 2000 ms): it retries at most twice. -/
theorem claim_C9_counterexample :
    cexOracle 4 = .ok { results := [] } ∧
      callCohereRerank cexOracle 1 =
        (.error "Cohere API error: boom", [1000, 2000]) := by
  constructor
  · rfl
  · rfl

/-! ## Claim C2: enrichment and the `id`/`content` fields -/

/-- Every chunk in the `applyMMR` output is an input candidate with (at
most) its `mmrScore` overwritten. -/
theorem applyMMR_mem_src (cos : SimFun) (qe : Emb) (cs : List Chunk) (finalK : Nat) (lam : ℚ) :
    ∀ c' ∈ applyMMR cos qe cs finalK lam,
      ∃ c ∈ cs, c' = { c with mmrScore := c'.mmrScore } := by
  intro c' hc'
  by_cases hle : cs.length ≤ finalK
  · have happ : applyMMR cos qe cs finalK lam = cs := by
      unfold applyMMR
      rw [if_pos hle]
    rw [happ] at hc'
    exact ⟨c', hc', rfl⟩
  · have hne : cs ≠ [] := by
      intro h
      exact hle (by rw [h]; simp)
    obtain ⟨m, hm⟩ := jsReduceMaxBy_some (fun c => c.similarity) hne
    have happ : applyMMR cos qe cs finalK lam = mmrLoop cos lam finalK [m] (cs.erase m) := by
      unfold applyMMR
      rw [if_neg hle, hm]
    rw [happ] at hc'
    obtain ⟨tail, htail, hmem⟩ :=
      mmrLoop_append cos lam finalK (cs.erase m).length [m] (cs.erase m) rfl
    rw [htail] at hc'
    rcases List.mem_append.mp hc' with h | h
    · rw [List.mem_singleton] at h
      subst h
      exact ⟨c', jsReduceMaxBy_mem hm, rfl⟩
    · obtain ⟨c, hcm, hceq⟩ := hmem c' h
      exact ⟨c, List.mem_of_mem_erase hcm, hceq⟩

/-- Position-wise characterisation of `Option`-valued `mapM`. -/
theorem mapM_option_get {α β : Type} (f : α → Option β) :
    ∀ (l : List α) (out : List β), l.mapM f = some out →
      ∀ n b, out.get? n = some b → ∃ a, l.get? n = some a ∧ f a = some b := by
  intro l
  induction l with
  | nil =>
    intro out h n b hb
    simp only [List.mapM_nil, pure, Option.some.injEq] at h
    subst h
    simp at hb
  | cons a as ih =>
    intro out h n b hb
    rw [List.mapM_cons] at h
    cases hfa : f a with
    | none => rw [hfa] at h; simp at h
    | some b0 =>
      rw [hfa] at h
      cases hrest : as.mapM f with
      | none => rw [hrest] at h; simp at h
      | some bs =>
        rw [hrest] at h
        simp only [bind, Option.bind, pure, Option.some.injEq] at h
        subst h
        cases n with
        | zero =>
          rw [List.get?_cons_zero] at hb
          cases hb
          exact ⟨a, List.get?_cons_zero, hfa⟩
        | succ n =>
          rw [List.get?_cons_succ] at hb
          obtain ⟨a', ha', hfa'⟩ := ih bs hrest n b hb
          exact ⟨a', by rw [List.get?_cons_succ]; exact ha', hfa'⟩

theorem processOneRerank_id_content {origs : List Chunk} {incl : Bool} {n : Nat}
    {r : RerankResultItem} {c' : Chunk}
    (h : processOneRerank origs incl n r = some c') :
    ∃ orig, origs.get? r.index = some orig ∧ c'.id = orig.id ∧
      ((r.document = none ∨ r.document = some "") → c'.content = orig.content) := by
  unfold processOneRerank at h
  cases hg : origs.get? r.index with
  | none => rw [hg] at h; cases h
  | some orig =>
    rw [hg] at h
    injection h with h2
    subst h2
    refine ⟨orig, rfl, rfl, ?_⟩
    intro hd
    rcases hd with hd | hd
    · show (match r.document with
        | some t => if t ≠ "" then t else orig.content
        | none => orig.content) = orig.content
      rw [hd]
    · show (match r.document with
        | some t => if t ≠ "" then t else orig.content
        | none => orig.content) = orig.content
      rw [hd]
      simp

/-- C2 (amended): enrichment never changes `id`: every chunk produced by
`applyMMR` has the `id` and `content` of an input candidate, and every
chunk produced by `processRerankResults` keeps the `id` of its original
chunk.  Reranking preserves `content` only when the response item carries
no document text (absent or empty `result.document?.text`); when the
reranker echoes the prepared (possibly truncated) document, `content` is
replaced by it — see the counterexample. -/
theorem claim_C2_enrichment (cos : SimFun) (qe : Emb) (cs : List Chunk)
    (finalK : Nat) (lam : ℚ) (resp : RerankResponse) (origs : List Chunk)
    (inclOrig : Bool) (out : List Chunk)
    (hout : processRerankResults resp origs inclOrig = some out) :
    (∀ c' ∈ applyMMR cos qe cs finalK lam,
      ∃ c ∈ cs, c'.id = c.id ∧ c'.content = c.content) ∧
    (∀ n c', out.get? n = some c' →
      ∃ r orig, resp.results.get? n = some r ∧ origs.get? r.index = some orig ∧
        c'.id = orig.id ∧
        ((r.document = none ∨ r.document = some "") → c'.content = orig.content)) := by
  constructor
  · intro c' hc'
    obtain ⟨c, hc, hceq⟩ := applyMMR_mem_src cos qe cs finalK lam c' hc'
    refine ⟨c, hc, ?_, ?_⟩
    · rw [hceq]
    · rw [hceq]
  · intro n c' hn
    obtain ⟨p, hp, hf⟩ := mapM_option_get _ resp.results.enum out hout n c' hn
    obtain ⟨orig, horig, hid, hcont⟩ := processOneRerank_id_content hf
    have henum : resp.results.enum.get? n = (resp.results.get? n).map fun a => (n, a) :=
      List.enum_get? resp.results n
    rw [henum] at hp
    cases hres : resp.results.get? n with
    | none => rw [hres] at hp; cases hp
    | some r =>
      rw [hres] at hp
      simp only [Option.map_some', Option.some.injEq] at hp
      subst hp
      exact ⟨r, orig, rfl, horig, hid, hcont⟩

/-- The enriched chunk produced by the concrete witness rerank below. -/
def chAReranked : Chunk := { chA with
  rerankScore := some (9/10),
  rerankRank := some 1,
  originalRank := some 1,
  rankImprovement := some 0 }

theorem claim_C2_enrichment_witness :
    (∀ c' ∈ applyMMR zeroSim [] [chA, chB] 5 (7/10),
      ∃ c ∈ ([chA, chB] : List Chunk), c'.id = c.id ∧ c'.content = c.content) ∧
    (∀ n c', ([chAReranked] : List Chunk).get? n = some c' →
      ∃ r orig,
        ([{ index := 0, relevanceScore := 9/10 }] : List RerankResultItem).get? n = some r ∧
        ([chA] : List Chunk).get? r.index = some orig ∧
        c'.id = orig.id ∧
        ((r.document = none ∨ r.document = some "") → c'.content = orig.content)) :=
  claim_C2_enrichment zeroSim [] [chA, chB] 5 (7/10)
    { results := [{ index := 0, relevanceScore := 9/10 }] } [chA] true [chAReranked] rfl

def bigContent : String := ⟨List.replicate 4097 'a'⟩

def chBig : Chunk := { id := "big", content := bigContent, similarity := 1/2 }

def truncContent : String := ⟨List.replicate 4096 'a' ++ ['.', '.', '.']⟩

/-- The chunk produced by reranking `chBig` when the response echoes the
truncated document. -/
def chBigReranked : Chunk := { chBig with
  content := truncContent,
  rerankScore := some (9/10),
  rerankRank := some 1,
  originalRank := some 1,
  rankImprovement := some 0 }

/-- C2 counterexample: a chunk whose `content` exceeds
`RERANK_CONFIG.maxChunksLength = 4096` characters is truncated (with an
ellipsis marker) by `prepareDocuments`; when the reranker echoes that
prepared document (`returnDocuments: true`, as the pipeline requests),
`processRerankResults` replaces the chunk's `content` with the truncated
text, so the output `content` differs from the input `content`. -/
theorem claim_C2_counterexample :
    prepareDocuments maxChunksLength true [chBig] = [truncContent] ∧
    processRerankResults
        { results := [{ index := 0, relevanceScore := 9/10, document := some truncContent }] }
        [chBig] true = some [chBigReranked] ∧
    chBigReranked.content ≠ chBig.content := by
  have hdata : chBig.content.data = List.replicate 4097 'a' := rfl
  have hlen : chBig.content.length = 4097 := by
    show chBig.content.data.length = 4097
    rw [hdata, List.length_replicate]
  have htlen : truncContent.length = 4099 := by
    show (List.replicate 4096 'a' ++ ['.', '.', '.']).length = 4099
    rw [List.length_append, List.length_replicate]
    rfl
  have hne : ¬ chBig.content = "" := by
    intro h
    have h2 := congrArg String.length h
    rw [hlen] at h2
    exact absurd h2 (by decide)
  refine ⟨?_, ?_, ?_⟩
  · simp only [prepareDocuments, List.map_cons, List.map_nil]
    rw [if_pos hne]
    have hgt : chBig.content.length > maxChunksLength := by
      rw [hlen]
      decide
    rw [if_pos (And.intro trivial hgt)]
    have htr : jsSubstringTo chBig.content maxChunksLength ++ "..." = truncContent := by
      show (⟨chBig.content.data.take maxChunksLength⟩ : String) ++ "..." = truncContent
      rw [hdata, List.take_replicate,
        show min maxChunksLength 4097 = 4096 from by decide]
      show String.mk (List.replicate 4096 'a' ++ ("..." : String).data) = truncContent
      rw [show ("..." : String).data = ['.', '.', '.'] from rfl]
      rfl
    rw [htr]
  · rfl
  · intro h
    have h2 := congrArg String.length h
    rw [show chBigReranked.content = truncContent from rfl, htlen, hlen] at h2
    exact absurd h2 (by decide)

/-! ## Claim C1: reranking failure in the complete pipeline -/

/-- A non-empty candidate list yields a non-empty `applyMMR` selection. -/
theorem applyMMR_ne_nil (cos : SimFun) (qe : Emb) (cs : List Chunk) (finalK : Nat) (lam : ℚ)
    (h : cs ≠ []) : applyMMR cos qe cs finalK lam ≠ [] := by
  by_cases hle : cs.length ≤ finalK
  · unfold applyMMR
    rw [if_pos hle]
    exact h
  · obtain ⟨m, hm⟩ := jsReduceMaxBy_some (fun c => c.similarity) h
    have happ : applyMMR cos qe cs finalK lam = mmrLoop cos lam finalK [m] (cs.erase m) := by
      unfold applyMMR
      rw [if_neg hle, hm]
    obtain ⟨tail, htail, _⟩ :=
      mmrLoop_append cos lam finalK (cs.erase m).length [m] (cs.erase m) rfl
    rw [happ, htail]
    simp

theorem formatResults_length (rs : List Chunk) (b : Bool) :
    (formatResults rs b).length = rs.length := by
  unfold formatResults
  rw [List.length_map, List.enum_length]

/-- Every formatted result carries the `content` of a source chunk. -/
theorem formatResults_mem_content (rs : List Chunk) (b : Bool) :
    ∀ c ∈ formatResults rs b, ∃ c0 ∈ rs, c.content = c0.content := by
  intro c hc
  unfold formatResults at hc
  obtain ⟨p, hp, hfc⟩ := List.mem_map.mp hc
  obtain ⟨n, hn⟩ := List.mem_iff_get?.mp hp
  rw [List.get?_enum] at hn
  cases hg : rs.get? n with
  | none => rw [hg] at hn; cases hn
  | some a =>
    rw [hg] at hn
    simp only [Option.map_some'] at hn
    injection hn with hn
    refine ⟨a, List.get?_mem hg, ?_⟩
    rw [← hfc, ← hn]

/-- `validateInputs` passes whenever the query trims non-empty, the chunk
list is non-empty with non-empty `content`s, and `topN` is in `[1, 100]`. -/
theorem validateInputs_none (query : String) (chunks : List Chunk) (topN : Nat)
    (hq : ¬ jsTrim query = "") (hlen : ¬ chunks.length = 0)
    (htopN : ¬ (topN < 1 ∨ topN > 100))
    (hcontent : ∀ c ∈ chunks, ¬ c.content = "") :
    validateInputs query chunks topN = none := by
  simp only [validateInputs]
  rw [if_neg hq, if_neg hlen, if_neg htopN]
  have hfilter : chunks.filter (fun c => c.content == "" && c.text == "") = [] := by
    apply List.filter_eq_nil.mpr
    intro c hc
    simp only [Bool.and_eq_true, beq_iff_eq]
    intro h
    exact hcontent c hc h.1
  rw [hfilter]
  rfl

/-- When every attempt of the Cohere call fails, `rerankChunks` surfaces
the classified error of the third (last) attempt, prefixed with
`Reranking failed: `. -/
theorem rerankChunks_call_error
    (cohereCall : String → List String → Nat → Nat → Except String RerankResponse)
    (errs : Nat → String) (query : String) (chunks : List Chunk) (topN : Nat)
    (incl trunc : Bool)
    (hfail : ∀ q docs t n, cohereCall q docs t n = .error (errs n))
    (hval : validateInputs query chunks topN = none) :
    rerankChunks cohereCall query chunks topN incl trunc =
      .error ("Reranking failed: " ++ classifyCohereError (errs 3)) := by
  have hc := @callCohereRerank_fail3
    (cohereCall (jsTrim query) (prepareDocuments maxChunksLength trunc chunks)
      (min topN chunks.length))
    (errs 1) (errs 2) (errs 3)
    (hfail _ _ _ 1) (hfail _ _ _ 2) (hfail _ _ _ 3)
  simp only [rerankChunks, hval, hc]

/-- The success record of `retrieveWithMMR` on a non-empty candidate list. -/
def mmrOkResult (cos : SimFun) (qe : Emb) (cands : List Chunk)
    (query : String) (finalK : Nat) (lam : ℚ) (b : Bool) : MMRResult :=
  { query := query,
    results := formatResults (applyMMR cos qe cands finalK lam) b,
    metadata :=
      { candidatesFound := cands.length,
        finalResults := (applyMMR cos qe cands finalK lam).length,
        mmrApplied := true,
        avgSimilarity := some (calculateAverageSimilarity (applyMMR cos qe cands finalK lam)),
        diversityScore :=
          some (calculateDiversityScore cos (applyMMR cos qe cands finalK lam)) } }

theorem retrieveWithMMR_ok (cos : SimFun) (qe : Emb) (cands : List Chunk)
    (query : String) (topK finalK : Nat) (lam threshold : ℚ) (b : Bool)
    (h : ¬ cands.length = 0) :
    retrieveWithMMR cos (.ok qe) (.ok cands) query topK finalK lam threshold b =
      .ok (mmrOkResult cos qe cands query finalK lam b) := by
  simp only [retrieveWithMMR, retrieveTopKCandidates, mmrOkResult]
  rw [if_neg h]

/-- C1 (amended): a reranking failure IS fatal to the complete pipeline.
With the embedding and search succeeding, a non-empty candidate list of
non-empty contents, a non-blank query, `1 ≤ rerankTopN ≤ 100` and a Cohere
call that fails on every attempt, `retrieveWithMMRAndRerank` with
`useReranking = true` propagates the error as
`Complete retrieval failed: Reranking failed: <classified last failure>` —
there is no `rerankingSkipped` degradation path (no such field exists);
the pre-rerank MMR result is returned only on the early exit
`useReranking = false` (or zero MMR results). -/
theorem claim_C1_rerank_failure (cos : SimFun) (qe : Emb) (cands : List Chunk)
    (cohereCall : String → List String → Nat → Nat → Except String RerankResponse)
    (errs : Nat → String) (query : String) (topK finalK rerankTopN : Nat)
    (lam threshold : ℚ) (includeMetadata : Bool)
    (hfail : ∀ q docs t n, cohereCall q docs t n = .error (errs n))
    (hcands : cands ≠ [])
    (hquery : ¬ jsTrim query = "")
    (hcontent : ∀ c ∈ cands, ¬ c.content = "")
    (hN1 : 1 ≤ rerankTopN) (hN2 : rerankTopN ≤ 100) :
    retrieveWithMMRAndRerank cos (.ok qe) (.ok cands) cohereCall query
        topK finalK rerankTopN lam threshold includeMetadata true =
      .error ("Complete retrieval failed: " ++ ("Reranking failed: "
        ++ classifyCohereError (errs 3))) ∧
    retrieveWithMMRAndRerank cos (.ok qe) (.ok cands) cohereCall query
        topK finalK rerankTopN lam threshold includeMetadata false =
      .ok (.mmrOnly (mmrOkResult cos qe cands query finalK lam false)) := by
  have hlen0 : ¬ cands.length = 0 := fun h => hcands (List.length_eq_zero.mp h)
  have hMMR := retrieveWithMMR_ok cos qe cands query topK finalK lam threshold false hlen0
  have hAne : applyMMR cos qe cands finalK lam ≠ [] :=
    applyMMR_ne_nil cos qe cands finalK lam hcands
  have hRne : ¬ (formatResults (applyMMR cos qe cands finalK lam) false).length = 0 := by
    rw [formatResults_length]
    intro h
    exact hAne (List.length_eq_zero.mp h)
  have hpos : 0 < (formatResults (applyMMR cos qe cands finalK lam) false).length :=
    Nat.pos_of_ne_zero hRne
  have hRcontent : ∀ c ∈ formatResults (applyMMR cos qe cands finalK lam) false,
      ¬ c.content = "" := by
    intro c hc
    obtain ⟨c0, hc0, hcc⟩ := formatResults_mem_content _ _ c hc
    obtain ⟨c1, hc1, hceq⟩ := applyMMR_mem_src cos qe cands finalK lam c0 hc0
    rw [hcc, hceq]
    exact hcontent c1 hc1
  have htopN : ¬ (min rerankTopN (formatResults (applyMMR cos qe cands finalK lam) false).length
      < 1 ∨
      min rerankTopN (formatResults (applyMMR cos qe cands finalK lam) false).length > 100) := by
    omega
  have hval := validateInputs_none query (formatResults (applyMMR cos qe cands finalK lam) false)
    (min rerankTopN (formatResults (applyMMR cos qe cands finalK lam) false).length)
    hquery hRne htopN hRcontent
  have hrerank := rerankChunks_call_error cohereCall errs query
    (formatResults (applyMMR cos qe cands finalK lam) false)
    (min rerankTopN (formatResults (applyMMR cos qe cands finalK lam) false).length)
    true true hfail hval
  constructor
  · simp only [retrieveWithMMRAndRerank, hMMR, mmrOkResult]
    rw [if_neg (show ¬ ((true : Bool) = false ∨
        (formatResults (applyMMR cos qe cands finalK lam) false).length = 0) from by
      rintro (h | h)
      · exact Bool.noConfusion h
      · exact hRne h)]
    rw [hrerank]
  · simp only [retrieveWithMMRAndRerank, hMMR]
    rw [if_pos (Or.inl trivial)]

/-- Witness for the amended C1 at a concrete failing Cohere call. -/
theorem claim_C1_rerank_failure_witness :
    retrieveWithMMRAndRerank zeroSim (.ok []) (.ok [chA, chB])
        (fun _ _ _ _ => .error "boom") "q" 10 10 5 (1/2) 0 true true =
      .error ("Complete retrieval failed: " ++ ("Reranking failed: "
        ++ classifyCohereError "boom")) ∧
    retrieveWithMMRAndRerank zeroSim (.ok []) (.ok [chA, chB])
        (fun _ _ _ _ => .error "boom") "q" 10 10 5 (1/2) 0 true false =
      .ok (.mmrOnly (mmrOkResult zeroSim [] [chA, chB] "q" 10 (1/2) false)) :=
  claim_C1_rerank_failure zeroSim [] [chA, chB] (fun _ _ _ _ => .error "boom")
    (fun _ => "boom") "q" 10 10 5 (1/2) 0 true
    (fun _ _ _ _ => rfl) (by simp) (by decide) (by decide) (by decide) (by decide)

/-- C1 counterexample: a concrete run refuting the claimed graceful
degradation.  Embedding and search succeed, two well-formed candidates are
retrieved, and the Cohere call always throws `boom`: the complete pipeline
returns the error
`Complete retrieval failed: Reranking failed: Cohere API error: boom`
instead of the pre-rerank MMR results with a `rerankingSkipped` marker
(no such marker exists anywhere in the code). -/
theorem claim_C1_counterexample :
    retrieveWithMMRAndRerank zeroSim (.ok []) (.ok [chA, chB])
        (fun _ _ _ _ => .error "boom") "q" 10 10 5 (1/2) 0 true true =
      .error "Complete retrieval failed: Reranking failed: Cohere API error: boom" := by
  rfl

end MiniRAG
